import Mathlib

/-!
goChess: the move validator of `src/goChess/main.go`.

A shallow embedding of the validator (`isValidMove` and the per-piece checkers it
dispatches to) together with theorems about it.

Modelling conventions.

* Go's `int` is modelled by `Int`.  `isValidMove` starts with a bounds gate that confines all
  four coordinates to `0..7`, so every later arithmetic expression (`fromRow+1`, `toCol-fromCol`,
  the loop counters) stays far from the 64-bit wrap-around.
* `ChessBoard` is Go's `[8][8]string`.  Reading `board[row][col]` with an index outside `0..7`
  is a run-time panic in Go; the embedding makes that explicit: `index` returns
  `Except.error Fault.indexOutOfRange` there, and every function that reads the board returns an
  `Except Fault Bool`.
* The three path-walk loops are recursive functions on a fuel counter; running out of fuel is
  the separate fault `Fault.fuelExhausted`, so that a panic, a loop that does not stop and a
  returned boolean are never confused.
* The package-level variable `upperTurn` is read by `isValidMove`; it is passed explicitly.
-/

namespace GoChess

/-- The constant `boardSize` (main.go line 10). -/
def boardSize : Int := 8

/-- The ways an evaluation can fail to return a value. -/
inductive Fault where
  /-- Go's run-time panic "index out of range" on `board[row][col]`. -/
  | indexOutOfRange
  /-- The fuel of a loop model was used up before the loop left. -/
  | fuelExhausted
  deriving DecidableEq

/-- The type `ChessBoard` (`[boardSize][boardSize]string`, main.go line 12): `board row col`. -/
def ChessBoard : Type := Fin 8 → Fin 8 → String

/-- The expression `board[row][col]` for machine integers `row`, `col`: the cell when both
indices are in `0..7`, the index panic otherwise. -/
def index (board : ChessBoard) (row col : Int) : Except Fault String :=
  if h : 0 ≤ row ∧ row < 8 ∧ 0 ≤ col ∧ col < 8 then
    Except.ok (board ⟨row.toNat, by omega⟩ ⟨col.toNat, by omega⟩)
  else
    Except.error Fault.indexOutOfRange

/-- A row literal `[boardSize]string{...}`; cells not listed are Go's zero value `""`. -/
def rowLit (cells : List String) : Fin 8 → String :=
  fun col => cells.getD col.val ""

/-- The function `initializeBoard` (main.go lines 16-28). -/
def initializeBoard : ChessBoard := fun row =>
  if row.val = 0 then rowLit ["r", "n", "b", "q", "k", "b", "n", "r"]
  else if row.val = 1 then rowLit ["p", "p", "p", "p", "p", "p", "p", "p"]
  else if 2 ≤ row.val ∧ row.val < 6 then rowLit [" ", " ", " ", " ", " ", " ", " ", " "]
  else if row.val = 6 then rowLit ["P", "P", "P", "P", "P", "P", "P", "P"]
  else rowLit ["R", "N", "B", "Q", "K", "B", "N", "R"]

/-- The library call `strings.ToUpper`, as it acts on ASCII text: the letters `a`..`z` are
mapped to `A`..`Z` and every other character is kept.  The twelve piece markers and the blank
marker are ASCII; for an origin cell that is none of them `isValidMove` returns `false`
whatever `isUpper` answers. -/
def toUpper (s : String) : String := String.mk (s.data.map Char.toUpper)

/-- The function `isUpper` (main.go lines 96-98). -/
def isUpper (s : String) : Bool := toUpper s == s

/-- The function `abs` (main.go lines 100-105). -/
def abs (x : Int) : Int := if x < 0 then -x else x

/-- The function `min` (main.go lines 241-246). -/
def min (a b : Int) : Int := if a < b then a else b

/-- The function `max` (main.go lines 248-253). -/
def max (a b : Int) : Int := if a > b then a else b

/-- The function `isValidKingMove` (main.go lines 107-122). -/
def isValidKingMove (fromCol fromRow toCol toRow : Int) (_board : ChessBoard) : Bool :=
  if toRow < 0 ∨ toRow ≥ boardSize ∨ toCol < 0 ∨ toCol ≥ boardSize then false
  else
    let rowDiff := abs (fromRow - toRow)
    let colDiff := abs (fromCol - toCol)
    if rowDiff ≤ 1 ∧ colDiff ≤ 1 then true else false

/-- The function `isValidKnightMove` (main.go lines 171-183). -/
def isValidKnightMove (fromCol fromRow toCol toRow : Int) (_board : ChessBoard) : Bool :=
  if toRow < 0 ∨ toRow ≥ boardSize ∨ toCol < 0 ∨ toCol ≥ boardSize then false
  else
    let rowDiff := abs (fromRow - toRow)
    let colDiff := abs (fromCol - toCol)
    decide ((rowDiff = 1 ∧ colDiff = 2) ∨ (rowDiff = 2 ∧ colDiff = 1))

/-- The loop `for col := ...; col < maxCol; col++ { if board[fromRow][col] != " " { return false } }`
(main.go lines 139-143 and 196-200), started with the counter at `col`.
`Except.ok false` is the early `return false`; `Except.ok true` means the loop ran to its end,
after which the caller reaches `return true`. -/
def rowWalk (board : ChessBoard) (fromRow maxCol : Int) : Nat → Int → Except Fault Bool
  | 0, _ => Except.error Fault.fuelExhausted
  | fuel + 1, col =>
    if col < maxCol then
      match index board fromRow col with
      | Except.error e => Except.error e
      | Except.ok s => if s ≠ " " then Except.ok false else rowWalk board fromRow maxCol fuel (col + 1)
    else Except.ok true

/-- The loop `for row := ...; row < maxRow; row++ { if board[row][fromCol] != " " { return false } }`
(main.go lines 146-150 and 203-207), started with the counter at `row`; results as for
`rowWalk`. -/
def colWalk (board : ChessBoard) (fromCol maxRow : Int) : Nat → Int → Except Fault Bool
  | 0, _ => Except.error Fault.fuelExhausted
  | fuel + 1, row =>
    if row < maxRow then
      match index board row fromCol with
      | Except.error e => Except.error e
      | Except.ok s => if s ≠ " " then Except.ok false else colWalk board fromCol maxRow fuel (row + 1)
    else Except.ok true

/-- The loop `for row, col := ...; row != toRow; row, col = row+rowDir, col+colDir
{ if board[row][col] != " " { return false } }` (main.go lines 160-164 and 231-235), started
with the counters at `row`, `col`; results as for `rowWalk`. -/
def diagWalk (board : ChessBoard) (rowDir colDir toRow : Int) : Nat → Int → Int → Except Fault Bool
  | 0, _, _ => Except.error Fault.fuelExhausted
  | fuel + 1, row, col =>
    if row ≠ toRow then
      match index board row col with
      | Except.error e => Except.error e
      | Except.ok s =>
        if s ≠ " " then Except.ok false
        else diagWalk board rowDir colDir toRow fuel (row + rowDir) (col + colDir)
    else Except.ok true

/-- The function `isValidQueenMove` (main.go lines 124-169). -/
def isValidQueenMove (fuel : Nat) (fromCol fromRow toCol toRow : Int) (board : ChessBoard) :
    Except Fault Bool :=
  if toRow < 0 ∨ toRow ≥ boardSize ∨ toCol < 0 ∨ toCol ≥ boardSize then Except.ok false
  else
    let rowDiff := abs (fromRow - toRow)
    let colDiff := abs (fromCol - toCol)
    if fromRow = toRow ∨ fromCol = toCol ∨ rowDiff = colDiff then
      if fromRow = toRow then
        let minCol := min fromCol toCol
        let maxCol := max fromCol toCol
        rowWalk board fromRow maxCol fuel (minCol + 1)
      else if fromCol = toCol then
        let minRow := min fromRow toRow
        let maxRow := max fromRow toRow
        colWalk board fromCol maxRow fuel (minRow + 1)
      else
        let rowDir : Int := if fromRow > toRow then -1 else 1
        let colDir : Int := if fromCol > toCol then -1 else 1
        diagWalk board rowDir colDir toRow fuel (fromRow + rowDir) (fromCol + colDir)
    else Except.ok false

/-- The function `isValidRookMove` (main.go lines 185-212). -/
def isValidRookMove (fuel : Nat) (fromCol fromRow toCol toRow : Int) (board : ChessBoard) :
    Except Fault Bool :=
  if toRow < 0 ∨ toRow ≥ boardSize ∨ toCol < 0 ∨ toCol ≥ boardSize then Except.ok false
  else if fromRow = toRow ∨ fromCol = toCol then
    if fromRow = toRow then
      let minCol := min fromCol toCol
      let maxCol := max fromCol toCol
      rowWalk board fromRow maxCol fuel (minCol + 1)
    else
      let minRow := min fromRow toRow
      let maxRow := max fromRow toRow
      colWalk board fromCol maxRow fuel (minRow + 1)
  else Except.ok false

/-- The function `isValidBishopMove` (main.go lines 214-239). -/
def isValidBishopMove (fuel : Nat) (fromCol fromRow toCol toRow : Int) (board : ChessBoard) :
    Except Fault Bool :=
  if toRow < 0 ∨ toRow ≥ boardSize ∨ toCol < 0 ∨ toCol ≥ boardSize then Except.ok false
  else if abs (toRow - fromRow) = abs (toCol - fromCol) then
    let rowDir : Int := if toRow < fromRow then -1 else 1
    let colDir : Int := if toCol < fromCol then -1 else 1
    diagWalk board rowDir colDir toRow fuel (fromRow + rowDir) (fromCol + colDir)
  else Except.ok false

/-- A condition `guard && board[row][col] <test>` of Go: the board is read only when the
guard before it is true (short-circuit evaluation), and then `test` is applied to the cell. -/
def guardedCell (guard : Bool) (board : ChessBoard) (row col : Int) (test : String → Bool) :
    Except Fault Bool :=
  if guard then
    match index board row col with
    | Except.error e => Except.error e
    | Except.ok s => Except.ok (test s)
  else Except.ok false

/-- A chain `if c1 { return true }; if c2 { return true }; ...; return false` whose conditions
may read the board: the conditions are evaluated in order until one is true or one faults. -/
def firstTrue : List (Except Fault Bool) → Except Fault Bool
  | [] => Except.ok false
  | c :: rest =>
    match c with
    | Except.error e => Except.error e
    | Except.ok true => Except.ok true
    | Except.ok false => firstTrue rest

/-- The case `"p"` of the switch in `isValidMove` (main.go lines 53-65), followed by the final
`return false` of line 93. -/
def lowerPawnCase (fromCol fromRow toCol toRow : Int) (board : ChessBoard) : Except Fault Bool :=
  firstTrue [
    guardedCell (decide (fromCol = toCol ∧ toRow = fromRow + 1)) board toRow toCol
      (fun s => s == " "),
    match guardedCell (decide (fromCol = toCol ∧ toRow = fromRow + 2 ∧ fromRow = 1))
        board (fromRow + 1) toCol (fun s => s == " ") with
    | Except.error e => Except.error e
    | Except.ok g => guardedCell g board toRow toCol (fun s => s == " "),
    match guardedCell (decide (abs (toCol - fromCol) = 1 ∧ toRow = fromRow + 1))
        board toRow toCol (fun s => s != " ") with
    | Except.error e => Except.error e
    | Except.ok g => guardedCell g board toRow toCol isUpper]

/-- The case `"P"` of the switch in `isValidMove` (main.go lines 66-78), followed by the final
`return false` of line 93. -/
def upperPawnCase (fromCol fromRow toCol toRow : Int) (board : ChessBoard) : Except Fault Bool :=
  firstTrue [
    guardedCell (decide (fromCol = toCol ∧ toRow = fromRow - 1)) board toRow toCol
      (fun s => s == " "),
    match guardedCell (decide (fromCol = toCol ∧ toRow = fromRow - 2 ∧ fromRow = 6))
        board (fromRow - 1) toCol (fun s => s == " ") with
    | Except.error e => Except.error e
    | Except.ok g => guardedCell g board toRow toCol (fun s => s == " "),
    match guardedCell (decide (abs (toCol - fromCol) = 1 ∧ toRow = fromRow - 1))
        board toRow toCol (fun s => s != " ") with
    | Except.error e => Except.error e
    | Except.ok g => guardedCell g board toRow toCol (fun s => !isUpper s)]

/-- The function `isValidMove` (main.go lines 41-94).  `upperTurn` is the package-level turn
flag the function reads; `fuel` bounds the path-walk loops of the checkers it calls. -/
def isValidMove (fuel : Nat) (upperTurn : Bool) (fromCol fromRow toCol toRow : Int)
    (board : ChessBoard) : Except Fault Bool :=
  if fromCol < 0 ∨ fromCol ≥ boardSize ∨ fromRow < 0 ∨ fromRow ≥ boardSize ∨
      toCol < 0 ∨ toCol ≥ boardSize ∨ toRow < 0 ∨ toRow ≥ boardSize then Except.ok false
  else
    match index board fromRow fromCol with
    | Except.error e => Except.error e
    | Except.ok piece =>
      if (upperTurn && !isUpper piece) || (!upperTurn && isUpper piece) then Except.ok false
      else if piece = "p" then lowerPawnCase fromCol fromRow toCol toRow board
      else if piece = "P" then upperPawnCase fromCol fromRow toCol toRow board
      else if piece = "r" ∨ piece = "R" then isValidRookMove fuel fromCol fromRow toCol toRow board
      else if piece = "b" ∨ piece = "B" then isValidBishopMove fuel fromCol fromRow toCol toRow board
      else if piece = "n" ∨ piece = "N" then
        Except.ok (isValidKnightMove fromCol fromRow toCol toRow board)
      else if piece = "q" ∨ piece = "Q" then isValidQueenMove fuel fromCol fromRow toCol toRow board
      else if piece = "k" ∨ piece = "K" then
        Except.ok (isValidKingMove fromCol fromRow toCol toRow board)
      else Except.ok false

/-! Vocabulary of the statements -/

/-- The six piece kinds. -/
inductive Kind where
  | pawn | rook | knight | bishop | queen | king
  deriving DecidableEq

/-- The marker the board holds for a piece of kind `k`: upper case for the upper side
(`upper = true`), lower case for the lower side. -/
def marker (upper : Bool) (k : Kind) : String :=
  match upper, k with
  | true, Kind.pawn => "P"
  | true, Kind.rook => "R"
  | true, Kind.knight => "N"
  | true, Kind.bishop => "B"
  | true, Kind.queen => "Q"
  | true, Kind.king => "K"
  | false, Kind.pawn => "p"
  | false, Kind.rook => "r"
  | false, Kind.knight => "n"
  | false, Kind.bishop => "b"
  | false, Kind.queen => "q"
  | false, Kind.king => "k"

/-- A square whose column and row are both in `0..7`. -/
def inBounds (col row : Int) : Prop := 0 ≤ col ∧ col < 8 ∧ 0 ≤ row ∧ row < 8

instance (col row : Int) : Decidable (inBounds col row) := by
  unfold inBounds; infer_instance

/-- Every cell of the board is one of the twelve piece markers or the empty marker `" "`. -/
def legalBoard (board : ChessBoard) : Prop :=
  ∀ row col : Fin 8, board row col = " " ∨ ∃ (u : Bool) (k : Kind), board row col = marker u k

/-- The square `(col, row)` lies strictly between `(fromCol, fromRow)` and `(toCol, toRow)` on
the row, the column or the diagonal that connects them. -/
def strictlyBetween (fromCol fromRow toCol toRow col row : Int) : Prop :=
  (fromRow = toRow ∧ row = fromRow ∧
      ((fromCol < col ∧ col < toCol) ∨ (toCol < col ∧ col < fromCol))) ∨
  (fromCol = toCol ∧ col = fromCol ∧
      ((fromRow < row ∧ row < toRow) ∨ (toRow < row ∧ row < fromRow))) ∨
  (((toRow - fromRow = toCol - fromCol ∧ row - fromRow = col - fromCol) ∨
      (toRow - fromRow = fromCol - toCol ∧ row - fromRow = fromCol - col)) ∧
      ((fromRow < row ∧ row < toRow) ∨ (toRow < row ∧ row < fromRow)))

instance (fromCol fromRow toCol toRow col row : Int) :
    Decidable (strictlyBetween fromCol fromRow toCol toRow col row) := by
  unfold strictlyBetween; infer_instance

/-- The move is geometrically admissible for a sliding piece of kind `k`: a rook moves along
a row or a column, a bishop along a diagonal, a queen along any of them. -/
def admissible (k : Kind) (fromCol fromRow toCol toRow : Int) : Prop :=
  match k with
  | Kind.rook => fromRow = toRow ∨ fromCol = toCol
  | Kind.bishop => (toRow - fromRow).natAbs = (toCol - fromCol).natAbs
  | Kind.queen =>
    fromRow = toRow ∨ fromCol = toCol ∨ (toRow - fromRow).natAbs = (toCol - fromCol).natAbs
  | _ => False

/-- Every square strictly between origin and destination holds the empty marker. -/
def pathClear (board : ChessBoard) (fromCol fromRow toCol toRow : Int) : Prop :=
  ∀ col row : Int, strictlyBetween fromCol fromRow toCol toRow col row →
    index board row col = Except.ok " "

/-- The board with the cell at `(col, row)` replaced by `s`. -/
def setCell (board : ChessBoard) (col row : Int) (s : String) : ChessBoard :=
  fun r c => if (r.val : Int) = row ∧ (c.val : Int) = col then s else board r c

/-- A board given by its eight rows, top row first; used for concrete positions. -/
def boardOfRows (rows : List (List String)) : ChessBoard :=
  fun row => rowLit (rows.getD row.val [])

/-- Direction of a pawn's advance along the rows: `-1` for the upper side, `1` for the lower. -/
def forward (upper : Bool) : Int := if upper then -1 else 1

/-- The row on which a side's pawns start: `6` for the upper side, `1` for the lower. -/
def startRow (upper : Bool) : Int := if upper then 6 else 1

/-- An upper king on column 4, row 0 with an upper pawn in front of it on column 4, row 1; all
other squares are blank. -/
def kingBeforeOwnPawn : ChessBoard :=
  boardOfRows [
    [" ", " ", " ", " ", "K", " ", " ", " "],
    [" ", " ", " ", " ", "P", " ", " ", " "],
    [" ", " ", " ", " ", " ", " ", " ", " "],
    [" ", " ", " ", " ", " ", " ", " ", " "],
    [" ", " ", " ", " ", " ", " ", " ", " "],
    [" ", " ", " ", " ", " ", " ", " ", " "],
    [" ", " ", " ", " ", " ", " ", " ", " "],
    [" ", " ", " ", " ", " ", " ", " ", " "]]

/-! The driver loop and further vocabulary -/

/-- The number of squares of the board whose cell passes `test`. -/
def countCells (board : ChessBoard) (test : String → Bool) : Nat :=
  (Finset.univ.filter fun p : Fin 8 × Fin 8 => test (board p.1 p.2) = true).card

/-- A cell is occupied when it is not the blank marker, the test the source applies. -/
def occupied (s : String) : Bool := s != " "

/-- The squares the diagonal loop reads, in order, started with its counters at `row`, `col`:
the recursion of `diagWalk`, recording the indices of each `board[row][col]`. -/
def diagReads (board : ChessBoard) (rowDir colDir toRow : Int) :
    Nat → Int → Int → List (Int × Int)
  | 0, _, _ => []
  | fuel + 1, row, col =>
    if row ≠ toRow then
      (col, row) ::
        match index board row col with
        | Except.error _ => []
        | Except.ok s =>
          if s ≠ " " then []
          else diagReads board rowDir colDir toRow fuel (row + rowDir) (col + colDir)
    else []

/-- The letter case of every character swapped; characters that are not letters are kept. -/
def swapCase (s : String) : String :=
  String.mk (s.data.map fun c =>
    if c.isUpper then c.toLower else if c.isLower then c.toUpper else c)

/-- The board seen from the other side: row `r` holds row `7 - r` of `board`, with the side
of every piece swapped. -/
def mirror (board : ChessBoard) : ChessBoard :=
  fun r c => swapCase (board ⟨7 - r.val, by omega⟩ c)

/-- The state the loop of `main` carries from one line to the next: its local `board` and the
package-level flag `upperTurn`. -/
structure GameState where
  /-- The local variable `board` of `main`. -/
  board : ChessBoard
  /-- The package-level variable `upperTurn`. -/
  upperTurn : Bool

/-- The state when the loop of `main` is entered (main.go lines 14 and 256). -/
def initialState : GameState := ⟨initializeBoard, true⟩

/-- The assignment `board[row][col] = s`: the updated board when both indices are in `0..7`,
the index panic otherwise. -/
def assign (board : ChessBoard) (row col : Int) (s : String) : Except Fault ChessBoard :=
  if 0 ≤ row ∧ row < 8 ∧ 0 ≤ col ∧ col < 8 then Except.ok (setCell board col row s)
  else Except.error Fault.indexOutOfRange

/-- Lines 287-294 of `main`, for a decoded move: a rejected move leaves the state as it is
(`continue`); an accepted one is applied, `board[toRow][toCol] = board[fromRow][fromCol]`,
`board[fromRow][fromCol] = " "`, and the turn flag is negated. -/
def mainStep (fuel : Nat) (st : GameState) (fromCol fromRow toCol toRow : Int) :
    Except Fault GameState :=
  match isValidMove fuel st.upperTurn fromCol fromRow toCol toRow st.board with
  | Except.error e => Except.error e
  | Except.ok false => Except.ok st
  | Except.ok true =>
    match index st.board fromRow fromCol with
    | Except.error e => Except.error e
    | Except.ok piece =>
      match assign st.board toRow toCol piece with
      | Except.error e => Except.error e
      | Except.ok moved =>
        match assign moved fromRow fromCol " " with
        | Except.error e => Except.error e
        | Except.ok cleared => Except.ok ⟨cleared, !st.upperTurn⟩

theorem index_inBounds (board : ChessBoard) (col row : Int) (h : inBounds col row) :
    ∃ s, index board row col = Except.ok s := by
  obtain ⟨h1, h2, h3, h4⟩ := h
  exact ⟨_, dif_pos ⟨h3, h4, h1, h2⟩⟩

theorem index_ok_inBounds {board : ChessBoard} {col row : Int} {s : String}
    (h : index board row col = Except.ok s) : inBounds col row := by
  unfold index at h
  split at h
  · rename_i hb; exact ⟨hb.2.2.1, hb.2.2.2, hb.1, hb.2.1⟩
  · cases h

theorem index_setCell (board : ChessBoard) (col row c r : Int) (s : String) :
    index (setCell board col row s) r c =
      if r = row ∧ c = col ∧ inBounds col row then Except.ok s else index board r c := by
  unfold index setCell inBounds
  by_cases hb : 0 ≤ r ∧ r < 8 ∧ 0 ≤ c ∧ c < 8
  · have e1 : ((r.toNat : Nat) : Int) = r := Int.toNat_of_nonneg hb.1
    have e2 : ((c.toNat : Nat) : Int) = c := Int.toNat_of_nonneg hb.2.2.1
    simp only [dif_pos hb, e1, e2]
    by_cases hrc : r = row ∧ c = col
    · obtain ⟨rfl, rfl⟩ := hrc
      simp [hb.1, hb.2.1, hb.2.2.1, hb.2.2.2]
    · have : ¬ (r = row ∧ c = col ∧ 0 ≤ col ∧ col < 8 ∧ 0 ≤ row ∧ row < 8) := fun h =>
        hrc ⟨h.1, h.2.1⟩
      rw [if_neg hrc, if_neg this]
  · have : ¬ (r = row ∧ c = col ∧ 0 ≤ col ∧ col < 8 ∧ 0 ≤ row ∧ row < 8) := by
      rintro ⟨rfl, rfl, h1, h2, h3, h4⟩
      exact hb ⟨h3, h4, h1, h2⟩
    rw [dif_neg hb, if_neg this, dif_neg hb]

theorem abs_eq_natAbs (x : Int) : abs x = (x.natAbs : Int) := by
  unfold abs; split <;> omega

theorem rowWalk_spec (board : ChessBoard) (fromRow maxCol : Int)
    (hr : 0 ≤ fromRow ∧ fromRow < 8) (hm : maxCol ≤ 8) :
    ∀ (fuel : Nat) (col : Int), 0 ≤ col → 0 < fuel → maxCol - col < fuel →
      ∃ b, rowWalk board fromRow maxCol fuel col = Except.ok b ∧
        (b = true ↔ ∀ c : Int, col ≤ c → c < maxCol → index board fromRow c = Except.ok " ") := by
  intro fuel
  induction fuel with
  | zero => intro col _ h; omega
  | succ n ih =>
    intro col hc _ hlt
    unfold rowWalk
    by_cases hcm : col < maxCol
    · obtain ⟨s, hs⟩ := index_inBounds board col fromRow ⟨hc, by omega, hr.1, hr.2⟩
      simp only [if_pos hcm, hs]
      by_cases hsp : s = " "
      · subst hsp
        obtain ⟨b, hb, hiff⟩ := ih (col + 1) (by omega) (by omega) (by push_cast at hlt ⊢; omega)
        refine ⟨b, by simpa using hb, ?_⟩
        rw [hiff]
        constructor
        · intro h c h1 h2
          by_cases hcc : c = col
          · subst hcc; exact hs
          · exact h c (by omega) h2
        · intro h c h1 h2
          exact h c (by omega) h2
      · refine ⟨false, by simp [hsp], ?_⟩
        constructor
        · intro h; cases h
        · intro h
          have := h col (le_refl _) hcm
          rw [hs] at this
          exact absurd (Except.ok.inj this) hsp
    · refine ⟨true, by simp [hcm], ?_⟩
      constructor
      · intro _ c h1 h2; omega
      · intro _; rfl

theorem colWalk_spec (board : ChessBoard) (fromCol maxRow : Int)
    (hc : 0 ≤ fromCol ∧ fromCol < 8) (hm : maxRow ≤ 8) :
    ∀ (fuel : Nat) (row : Int), 0 ≤ row → 0 < fuel → maxRow - row < fuel →
      ∃ b, colWalk board fromCol maxRow fuel row = Except.ok b ∧
        (b = true ↔ ∀ r : Int, row ≤ r → r < maxRow → index board r fromCol = Except.ok " ") := by
  intro fuel
  induction fuel with
  | zero => intro row _ h; omega
  | succ n ih =>
    intro row hr _ hlt
    unfold colWalk
    by_cases hcm : row < maxRow
    · obtain ⟨s, hs⟩ := index_inBounds board fromCol row ⟨hc.1, hc.2, hr, by omega⟩
      simp only [if_pos hcm, hs]
      by_cases hsp : s = " "
      · subst hsp
        obtain ⟨b, hb, hiff⟩ := ih (row + 1) (by omega) (by omega) (by push_cast at hlt ⊢; omega)
        refine ⟨b, by simpa using hb, ?_⟩
        rw [hiff]
        constructor
        · intro h r h1 h2
          by_cases hrr : r = row
          · subst hrr; exact hs
          · exact h r (by omega) h2
        · intro h r h1 h2
          exact h r (by omega) h2
      · refine ⟨false, by simp [hsp], ?_⟩
        constructor
        · intro h; cases h
        · intro h
          have := h row (le_refl _) hcm
          rw [hs] at this
          exact absurd (Except.ok.inj this) hsp
    · refine ⟨true, by simp [hcm], ?_⟩
      constructor
      · intro _ r h1 h2; omega
      · intro _; rfl

theorem diagWalk_spec (board : ChessBoard) (rowDir colDir toRow : Int) (hr : rowDir ≠ 0) :
    ∀ (n fuel : Nat) (row col : Int), n < fuel → toRow = row + n * rowDir →
      (∀ j : Nat, j < n → inBounds (col + j * colDir) (row + j * rowDir)) →
      ∃ b, diagWalk board rowDir colDir toRow fuel row col = Except.ok b ∧
        (b = true ↔
          ∀ j : Nat, j < n → index board (row + j * rowDir) (col + j * colDir) = Except.ok " ") := by
  intro n
  induction n with
  | zero =>
    intro fuel row col hf ht _
    obtain ⟨m, rfl⟩ : ∃ m, fuel = m + 1 := ⟨fuel - 1, by omega⟩
    have : row = toRow := by simp [ht]
    refine ⟨true, by simp [diagWalk, this], ?_⟩
    constructor
    · intro _ j hj; omega
    · intro _; rfl
  | succ n ih =>
    intro fuel row col hf ht hin
    obtain ⟨m, rfl⟩ : ∃ m, fuel = m + 1 := ⟨fuel - 1, by omega⟩
    have hne : row ≠ toRow := by
      intro h
      have h0 : ((n + 1 : Nat) : Int) * rowDir = 0 := by rw [ht] at h; linarith
      rcases mul_eq_zero.mp h0 with h1 | h1
      · omega
      · exact hr h1
    have h00 := hin 0 (by omega)
    simp only [Nat.cast_zero, zero_mul, add_zero] at h00
    obtain ⟨s, hs⟩ := index_inBounds board _ _ h00
    have e1 : ∀ j : Nat, row + rowDir + (j : Int) * rowDir = row + ((j + 1 : Nat) : Int) * rowDir := by
      intro j; push_cast; ring
    have e2 : ∀ j : Nat, col + colDir + (j : Int) * colDir = col + ((j + 1 : Nat) : Int) * colDir := by
      intro j; push_cast; ring
    unfold diagWalk
    simp only [if_pos hne, hs]
    by_cases hsp : s = " "
    · subst hsp
      obtain ⟨b, hb, hiff⟩ := ih m (row + rowDir) (col + colDir) (by omega)
        (by rw [ht]; push_cast; ring)
        (by intro j hj; rw [e1, e2]; exact hin (j + 1) (by omega))
      refine ⟨b, by simpa using hb, ?_⟩
      rw [hiff]
      constructor
      · intro h j hj
        rcases Nat.eq_zero_or_pos j with h0 | hpos
        · subst h0; simpa using hs
        · obtain ⟨i, rfl⟩ : ∃ i, j = i + 1 := ⟨j - 1, by omega⟩
          rw [← e1, ← e2]; exact h i (by omega)
      · intro h j hj
        rw [e1, e2]; exact h (j + 1) (by omega)
    · refine ⟨false, by simp [hsp], ?_⟩
      constructor
      · intro h; cases h
      · intro h
        have := h 0 (by omega)
        simp only [Nat.cast_zero, zero_mul, add_zero] at this
        rw [hs] at this
        exact absurd (Except.ok.inj this) hsp

/-- The row walk as the rook and the queen start it: it returns, and it returns `true` exactly
when the path is clear. -/
theorem rowFrom_spec (board : ChessBoard) (fuel : Nat) (fromCol fromRow toCol toRow : Int)
    (hf : inBounds fromCol fromRow) (ht : inBounds toCol toRow) (hfuel : 8 ≤ fuel)
    (hrow : fromRow = toRow) :
    ∃ b, rowWalk board fromRow (max fromCol toCol) fuel (min fromCol toCol + 1) = Except.ok b ∧
      (b = true ↔ pathClear board fromCol fromRow toCol toRow) := by
  obtain ⟨f1, f2, f3, f4⟩ := hf
  obtain ⟨t1, t2, t3, t4⟩ := ht
  have hmax : max fromCol toCol ≤ 8 := by unfold max; split <;> omega
  have hmin : 0 ≤ min fromCol toCol + 1 := by unfold min; split <;> omega
  have hlt : max fromCol toCol - (min fromCol toCol + 1) < (fuel : Int) := by
    unfold max min; split <;> split <;> omega
  obtain ⟨b, hb, hiff⟩ := rowWalk_spec board fromRow (max fromCol toCol) ⟨f3, f4⟩ hmax fuel
    (min fromCol toCol + 1) hmin (by omega) hlt
  refine ⟨b, hb, ?_⟩
  rw [hiff]
  constructor
  · intro h col row hbt
    have hrw : row = fromRow := by unfold strictlyBetween at hbt; omega
    subst hrw
    apply h
    · unfold strictlyBetween at hbt; unfold min; split <;> omega
    · unfold strictlyBetween at hbt; unfold max; split <;> omega
  · intro h c h1 h2
    apply h
    unfold strictlyBetween
    unfold min at h1; unfold max at h2
    split at h1 <;> split at h2 <;> omega

/-- The column walk as the rook and the queen start it: it returns, and it returns `true`
exactly when the path is clear. -/
theorem colFrom_spec (board : ChessBoard) (fuel : Nat) (fromCol fromRow toCol toRow : Int)
    (hf : inBounds fromCol fromRow) (ht : inBounds toCol toRow) (hfuel : 8 ≤ fuel)
    (hcol : fromCol = toCol) :
    ∃ b, colWalk board fromCol (max fromRow toRow) fuel (min fromRow toRow + 1) = Except.ok b ∧
      (b = true ↔ pathClear board fromCol fromRow toCol toRow) := by
  obtain ⟨f1, f2, f3, f4⟩ := hf
  obtain ⟨t1, t2, t3, t4⟩ := ht
  have hmax : max fromRow toRow ≤ 8 := by unfold max; split <;> omega
  have hmin : 0 ≤ min fromRow toRow + 1 := by unfold min; split <;> omega
  have hlt : max fromRow toRow - (min fromRow toRow + 1) < (fuel : Int) := by
    unfold max min; split <;> split <;> omega
  obtain ⟨b, hb, hiff⟩ := colWalk_spec board fromCol (max fromRow toRow) ⟨f1, f2⟩ hmax fuel
    (min fromRow toRow + 1) hmin (by omega) hlt
  refine ⟨b, hb, ?_⟩
  rw [hiff]
  constructor
  · intro h col row hbt
    have hcw : col = fromCol := by unfold strictlyBetween at hbt; omega
    subst hcw
    apply h
    · unfold strictlyBetween at hbt; unfold min; split <;> omega
    · unfold strictlyBetween at hbt; unfold max; split <;> omega
  · intro h r h1 h2
    apply h
    unfold strictlyBetween
    unfold min at h1; unfold max at h2
    split at h1 <;> split at h2 <;> omega

/-- The diagonal walk as the bishop and the queen start it, for a diagonal move between two
different squares of the board: it returns, and it returns `true` exactly when the path is
clear. -/
theorem diagFrom_spec (board : ChessBoard) (fuel : Nat) (fromCol fromRow toCol toRow : Int)
    (hf : inBounds fromCol fromRow) (ht : inBounds toCol toRow) (hfuel : 8 ≤ fuel)
    (hd : (toRow - fromRow).natAbs = (toCol - fromCol).natAbs) (hne : fromRow ≠ toRow)
    (rowDir colDir : Int) (hrd : rowDir = if toRow < fromRow then -1 else 1)
    (hcd : colDir = if toCol < fromCol then -1 else 1) :
    ∃ b, diagWalk board rowDir colDir toRow fuel (fromRow + rowDir) (fromCol + colDir)
        = Except.ok b ∧
      (b = true ↔ pathClear board fromCol fromRow toCol toRow) := by
  obtain ⟨f1, f2, f3, f4⟩ := hf
  obtain ⟨t1, t2, t3, t4⟩ := ht
  have hr0 : rowDir ≠ 0 := by rw [hrd]; split <;> omega
  obtain ⟨b, hb, hiff⟩ := diagWalk_spec board rowDir colDir toRow hr0
    ((toRow - fromRow).natAbs - 1) fuel (fromRow + rowDir) (fromCol + colDir) (by omega)
    (by
      rw [hrd]; split
      · have : (((toRow - fromRow).natAbs - 1 : Nat) : Int) = fromRow - toRow - 1 := by omega
        rw [this]; ring
      · have : (((toRow - fromRow).natAbs - 1 : Nat) : Int) = toRow - fromRow - 1 := by omega
        rw [this]; ring)
    (by
      intro j hj
      unfold inBounds
      rw [hrd, hcd]
      split <;> split <;> simp only [mul_neg, mul_one] <;> omega)
  refine ⟨b, hb, ?_⟩
  rw [hiff]
  constructor
  · intro h col row hbt
    unfold strictlyBetween at hbt
    have hj := h ((row - fromRow).natAbs - 1) (by omega)
    have e1 : fromRow + rowDir + (((row - fromRow).natAbs - 1 : Nat) : Int) * rowDir = row := by
      rw [hrd]; split <;> simp only [mul_neg, mul_one] <;> omega
    have e2 : fromCol + colDir + (((row - fromRow).natAbs - 1 : Nat) : Int) * colDir = col := by
      rw [hcd]; split <;> simp only [mul_neg, mul_one] <;> omega
    rw [e1, e2] at hj
    exact hj
  · intro h j hj
    apply h
    unfold strictlyBetween
    rw [hrd, hcd]
    split <;> split <;> simp only [mul_neg, mul_one] <;> omega

theorem isValidRookMove_spec (board : ChessBoard) (fuel : Nat) (fromCol fromRow toCol toRow : Int)
    (hf : inBounds fromCol fromRow) (ht : inBounds toCol toRow) (hfuel : 8 ≤ fuel) :
    ∃ b, isValidRookMove fuel fromCol fromRow toCol toRow board = Except.ok b ∧
      (b = true ↔ admissible Kind.rook fromCol fromRow toCol toRow ∧
        pathClear board fromCol fromRow toCol toRow) := by
  have hgate : ¬ (toRow < 0 ∨ toRow ≥ boardSize ∨ toCol < 0 ∨ toCol ≥ boardSize) := by
    unfold inBounds at ht; unfold boardSize; omega
  unfold isValidRookMove admissible
  rw [if_neg hgate]
  by_cases hadm : fromRow = toRow ∨ fromCol = toCol
  · rw [if_pos hadm]
    by_cases hrow : fromRow = toRow
    · rw [if_pos hrow]
      obtain ⟨b, hb, hiff⟩ := rowFrom_spec board fuel fromCol fromRow toCol toRow hf ht hfuel hrow
      exact ⟨b, hb, by rw [hiff]; exact ⟨fun h => ⟨hadm, h⟩, fun h => h.2⟩⟩
    · rw [if_neg hrow]
      have hcol : fromCol = toCol := hadm.resolve_left hrow
      obtain ⟨b, hb, hiff⟩ := colFrom_spec board fuel fromCol fromRow toCol toRow hf ht hfuel hcol
      exact ⟨b, hb, by rw [hiff]; exact ⟨fun h => ⟨hadm, h⟩, fun h => h.2⟩⟩
  · rw [if_neg hadm]
    exact ⟨false, rfl, ⟨fun h => Bool.noConfusion h, fun h => absurd h.1 hadm⟩⟩

theorem isValidBishopMove_spec (board : ChessBoard) (fuel : Nat)
    (fromCol fromRow toCol toRow : Int)
    (hf : inBounds fromCol fromRow) (ht : inBounds toCol toRow) (hfuel : 8 ≤ fuel)
    (hne : ¬ (fromCol = toCol ∧ fromRow = toRow)) :
    ∃ b, isValidBishopMove fuel fromCol fromRow toCol toRow board = Except.ok b ∧
      (b = true ↔ admissible Kind.bishop fromCol fromRow toCol toRow ∧
        pathClear board fromCol fromRow toCol toRow) := by
  have hgate : ¬ (toRow < 0 ∨ toRow ≥ boardSize ∨ toCol < 0 ∨ toCol ≥ boardSize) := by
    unfold inBounds at ht; unfold boardSize; omega
  unfold isValidBishopMove admissible
  rw [if_neg hgate]
  by_cases hadm : (toRow - fromRow).natAbs = (toCol - fromCol).natAbs
  · have habs : abs (toRow - fromRow) = abs (toCol - fromCol) := by
      rw [abs_eq_natAbs, abs_eq_natAbs, hadm]
    rw [if_pos habs]
    have hrow : fromRow ≠ toRow := by omega
    obtain ⟨b, hb, hiff⟩ := diagFrom_spec board fuel fromCol fromRow toCol toRow hf ht hfuel
      hadm hrow _ _ rfl rfl
    exact ⟨b, hb, by rw [hiff]; exact ⟨fun h => ⟨hadm, h⟩, fun h => h.2⟩⟩
  · have habs : ¬ abs (toRow - fromRow) = abs (toCol - fromCol) := by
      rw [abs_eq_natAbs, abs_eq_natAbs]; omega
    rw [if_neg habs]
    exact ⟨false, rfl, ⟨fun h => Bool.noConfusion h, fun h => absurd h.1 hadm⟩⟩

theorem isValidQueenMove_spec (board : ChessBoard) (fuel : Nat)
    (fromCol fromRow toCol toRow : Int)
    (hf : inBounds fromCol fromRow) (ht : inBounds toCol toRow) (hfuel : 8 ≤ fuel) :
    ∃ b, isValidQueenMove fuel fromCol fromRow toCol toRow board = Except.ok b ∧
      (b = true ↔ admissible Kind.queen fromCol fromRow toCol toRow ∧
        pathClear board fromCol fromRow toCol toRow) := by
  have hgate : ¬ (toRow < 0 ∨ toRow ≥ boardSize ∨ toCol < 0 ∨ toCol ≥ boardSize) := by
    unfold inBounds at ht; unfold boardSize; omega
  unfold isValidQueenMove admissible
  rw [if_neg hgate]
  have hiffadm : (fromRow = toRow ∨ fromCol = toCol ∨
      abs (fromRow - toRow) = abs (fromCol - toCol)) ↔
      (fromRow = toRow ∨ fromCol = toCol ∨
        (toRow - fromRow).natAbs = (toCol - fromCol).natAbs) := by
    rw [abs_eq_natAbs, abs_eq_natAbs]; omega
  by_cases hadm : fromRow = toRow ∨ fromCol = toCol ∨
      (toRow - fromRow).natAbs = (toCol - fromCol).natAbs
  · simp only [if_pos (hiffadm.mpr hadm)]
    by_cases hrow : fromRow = toRow
    · rw [if_pos hrow]
      obtain ⟨b, hb, hiff⟩ := rowFrom_spec board fuel fromCol fromRow toCol toRow hf ht hfuel hrow
      exact ⟨b, hb, by rw [hiff]; exact ⟨fun h => ⟨hadm, h⟩, fun h => h.2⟩⟩
    · rw [if_neg hrow]
      by_cases hcol : fromCol = toCol
      · rw [if_pos hcol]
        obtain ⟨b, hb, hiff⟩ := colFrom_spec board fuel fromCol fromRow toCol toRow hf ht hfuel hcol
        exact ⟨b, hb, by rw [hiff]; exact ⟨fun h => ⟨hadm, h⟩, fun h => h.2⟩⟩
      · rw [if_neg hcol]
        have hd : (toRow - fromRow).natAbs = (toCol - fromCol).natAbs :=
          (hadm.resolve_left hrow).resolve_left hcol
        obtain ⟨b, hb, hiff⟩ := diagFrom_spec board fuel fromCol fromRow toCol toRow hf ht hfuel
          hd hrow (if fromRow > toRow then -1 else 1) (if fromCol > toCol then -1 else 1)
          rfl rfl
        exact ⟨b, hb, by rw [hiff]; exact ⟨fun h => ⟨hadm, h⟩, fun h => h.2⟩⟩
  · simp only [if_neg (fun h => hadm (hiffadm.mp h))]
    exact ⟨false, rfl, ⟨fun h => Bool.noConfusion h, fun h => absurd h.1 hadm⟩⟩

/-- What `isValidMove` does once the bounds gate is passed and the origin holds a piece of the
side to move: it dispatches on the kind. -/
theorem isValidMove_dispatch (board : ChessBoard) (fuel : Nat) (upperTurn : Bool)
    (fromCol fromRow toCol toRow : Int) (k : Kind)
    (hf : inBounds fromCol fromRow) (ht : inBounds toCol toRow)
    (hp : index board fromRow fromCol = Except.ok (marker upperTurn k)) :
    isValidMove fuel upperTurn fromCol fromRow toCol toRow board =
      match k with
      | Kind.pawn =>
        if upperTurn then upperPawnCase fromCol fromRow toCol toRow board
        else lowerPawnCase fromCol fromRow toCol toRow board
      | Kind.rook => isValidRookMove fuel fromCol fromRow toCol toRow board
      | Kind.knight => Except.ok (isValidKnightMove fromCol fromRow toCol toRow board)
      | Kind.bishop => isValidBishopMove fuel fromCol fromRow toCol toRow board
      | Kind.queen => isValidQueenMove fuel fromCol fromRow toCol toRow board
      | Kind.king => Except.ok (isValidKingMove fromCol fromRow toCol toRow board) := by
  have hgate : ¬ (fromCol < 0 ∨ fromCol ≥ boardSize ∨ fromRow < 0 ∨ fromRow ≥ boardSize ∨
      toCol < 0 ∨ toCol ≥ boardSize ∨ toRow < 0 ∨ toRow ≥ boardSize) := by
    unfold inBounds at hf ht; unfold boardSize; omega
  unfold isValidMove
  rw [if_neg hgate]
  simp only [hp]
  cases upperTurn <;> cases k <;> rfl

/-- A piece of the side that is not to move is stopped by the ownership check. -/
theorem isValidMove_wrongSide (board : ChessBoard) (fuel : Nat) (upperTurn : Bool)
    (fromCol fromRow toCol toRow : Int) (k : Kind)
    (hp : index board fromRow fromCol = Except.ok (marker (!upperTurn) k)) :
    isValidMove fuel upperTurn fromCol fromRow toCol toRow board = Except.ok false := by
  unfold isValidMove
  split
  · rfl
  · simp only [hp]
    cases upperTurn <;> cases k <;> rfl

theorem ok_ne_blank {board : ChessBoard} {row col : Int} {d : String}
    (hd : index board row col = Except.ok d) (hsp : d ≠ " ") :
    ¬ index board row col = Except.ok " " := by
  intro h; rw [hd] at h; exact hsp (Except.ok.inj h)

theorem lowerPawnCase_spec (board : ChessBoard) (fromCol fromRow toCol toRow : Int)
    (ht : inBounds toCol toRow) :
    ∃ b, lowerPawnCase fromCol fromRow toCol toRow board = Except.ok b ∧
      (b = true ↔
        (fromCol = toCol ∧ toRow = fromRow + 1 ∧ index board toRow toCol = Except.ok " ") ∨
        (fromCol = toCol ∧ toRow = fromRow + 2 ∧ fromRow = 1 ∧
          index board (fromRow + 1) fromCol = Except.ok " " ∧
          index board toRow toCol = Except.ok " ") ∨
        ((toCol - fromCol).natAbs = 1 ∧ toRow = fromRow + 1 ∧
          ∃ s, index board toRow toCol = Except.ok s ∧ s ≠ " " ∧ isUpper s = true)) := by
  obtain ⟨d, hd⟩ := index_inBounds board _ _ ht
  unfold inBounds at ht
  unfold lowerPawnCase
  have habs : abs (toCol - fromCol) = 1 ↔ (toCol - fromCol).natAbs = 1 := by
    rw [abs_eq_natAbs]; omega
  by_cases g1 : fromCol = toCol ∧ toRow = fromRow + 1
  · have e1 := decide_eq_true g1
    have e2 : decide (fromCol = toCol ∧ toRow = fromRow + 2 ∧ fromRow = 1) = false :=
      decide_eq_false (by omega)
    have e3 : decide (abs (toCol - fromCol) = 1 ∧ toRow = fromRow + 1) = false :=
      decide_eq_false (by rw [habs]; omega)
    by_cases hsp : d = " "
    · subst hsp
      refine ⟨true, ?_, fun _ => Or.inl ⟨g1.1, g1.2, hd⟩, fun _ => rfl⟩
      simp only [firstTrue, guardedCell, e1, hd]
      rfl
    · have hbeq : (d == " ") = false := by simpa using hsp
      refine ⟨false, ?_, fun h => Bool.noConfusion h, ?_⟩
      · simp only [firstTrue, guardedCell, e1, e2, e3, hd, hbeq]
        rfl
      · intro hh; exfalso; revert hh; rintro (h | h | h)
        · exact ok_ne_blank hd hsp h.2.2
        · omega
        · omega
  · have e1 := decide_eq_false g1
    by_cases g2 : fromCol = toCol ∧ toRow = fromRow + 2 ∧ fromRow = 1
    · have e2 := decide_eq_true g2
      have e3 : decide (abs (toCol - fromCol) = 1 ∧ toRow = fromRow + 1) = false :=
        decide_eq_false (by rw [habs]; omega)
      obtain ⟨m, hm⟩ := index_inBounds board toCol (fromRow + 1)
        ⟨ht.1, ht.2.1, by omega, by omega⟩
      have hm2 : index board (fromRow + 1) fromCol = Except.ok m := by rw [g2.1]; exact hm
      by_cases hmp : m = " "
      · by_cases hsp : d = " "
        · subst hsp; subst hmp
          refine ⟨true, ?_, fun _ => Or.inr (Or.inl ⟨g2.1, g2.2.1, g2.2.2, hm2, hd⟩),
            fun _ => rfl⟩
          simp only [firstTrue, guardedCell, e1, e2, hd, hm]
          rfl
        · have hbeq : (d == " ") = false := by simpa using hsp
          subst hmp
          refine ⟨false, ?_, fun h => Bool.noConfusion h, ?_⟩
          · simp only [firstTrue, guardedCell, e1, e2, e3, hd, hm, hbeq]
            rfl
          · intro hh; exfalso; revert hh; rintro (h | h | h)
            · exact g1 ⟨h.1, h.2.1⟩
            · exact ok_ne_blank hd hsp h.2.2.2.2
            · omega
      · have hbeq : (m == " ") = false := by simpa using hmp
        refine ⟨false, ?_, fun h => Bool.noConfusion h, ?_⟩
        · simp only [firstTrue, guardedCell, e1, e2, e3, hm, hbeq]
          rfl
        · intro hh; exfalso; revert hh; rintro (h | h | h)
          · exact g1 ⟨h.1, h.2.1⟩
          · exact ok_ne_blank hm2 hmp h.2.2.2.1
          · omega
    · have e2 := decide_eq_false g2
      by_cases g3 : abs (toCol - fromCol) = 1 ∧ toRow = fromRow + 1
      · have e3 := decide_eq_true g3
        by_cases hsp : d = " "
        · subst hsp
          refine ⟨false, ?_, fun h => Bool.noConfusion h, ?_⟩
          · simp only [firstTrue, guardedCell, e1, e2, e3, hd]
            rfl
          · intro hh; exfalso; revert hh; rintro (h | h | ⟨_, _, s, hs, hne, _⟩)
            · exact g1 ⟨h.1, h.2.1⟩
            · exact g2 ⟨h.1, h.2.1, h.2.2.1⟩
            · rw [hd] at hs; exact hne (Except.ok.inj hs).symm
        · have hbne : (d != " ") = true := by simpa using hsp
          by_cases hup : isUpper d = true
          · refine ⟨true, ?_, fun _ => Or.inr (Or.inr ⟨habs.mp g3.1, g3.2, d, hd, hsp, hup⟩),
              fun _ => rfl⟩
            simp only [firstTrue, guardedCell, e1, e2, e3, hd, hbne, hup]
            rfl
          · have hup2 : isUpper d = false := by simpa using hup
            refine ⟨false, ?_, fun h => Bool.noConfusion h, ?_⟩
            · simp only [firstTrue, guardedCell, e1, e2, e3, hd, hbne, hup2]
              rfl
            · intro hh; exfalso; revert hh; rintro (h | h | ⟨_, _, s, hs, _, hu⟩)
              · exact g1 ⟨h.1, h.2.1⟩
              · exact g2 ⟨h.1, h.2.1, h.2.2.1⟩
              · rw [hd] at hs; rw [← Except.ok.inj hs] at hu; exact hup hu
      · have e3 := decide_eq_false g3
        refine ⟨false, ?_, fun h => Bool.noConfusion h, ?_⟩
        · simp only [firstTrue, guardedCell, e1, e2, e3]
          rfl
        · intro hh; exfalso; revert hh; rintro (h | h | h)
          · exact g1 ⟨h.1, h.2.1⟩
          · exact g2 ⟨h.1, h.2.1, h.2.2.1⟩
          · exact g3 ⟨habs.mpr h.1, h.2.1⟩

theorem upperPawnCase_spec (board : ChessBoard) (fromCol fromRow toCol toRow : Int)
    (ht : inBounds toCol toRow) :
    ∃ b, upperPawnCase fromCol fromRow toCol toRow board = Except.ok b ∧
      (b = true ↔
        (fromCol = toCol ∧ toRow = fromRow - 1 ∧ index board toRow toCol = Except.ok " ") ∨
        (fromCol = toCol ∧ toRow = fromRow - 2 ∧ fromRow = 6 ∧
          index board (fromRow - 1) fromCol = Except.ok " " ∧
          index board toRow toCol = Except.ok " ") ∨
        ((toCol - fromCol).natAbs = 1 ∧ toRow = fromRow - 1 ∧
          ∃ s, index board toRow toCol = Except.ok s ∧ s ≠ " " ∧ isUpper s = false)) := by
  obtain ⟨d, hd⟩ := index_inBounds board _ _ ht
  unfold inBounds at ht
  unfold upperPawnCase
  have habs : abs (toCol - fromCol) = 1 ↔ (toCol - fromCol).natAbs = 1 := by
    rw [abs_eq_natAbs]; omega
  by_cases g1 : fromCol = toCol ∧ toRow = fromRow - 1
  · have e1 := decide_eq_true g1
    have e2 : decide (fromCol = toCol ∧ toRow = fromRow - 2 ∧ fromRow = 6) = false :=
      decide_eq_false (by omega)
    have e3 : decide (abs (toCol - fromCol) = 1 ∧ toRow = fromRow - 1) = false :=
      decide_eq_false (by rw [habs]; omega)
    by_cases hsp : d = " "
    · subst hsp
      refine ⟨true, ?_, fun _ => Or.inl ⟨g1.1, g1.2, hd⟩, fun _ => rfl⟩
      simp only [firstTrue, guardedCell, e1, hd]
      rfl
    · have hbeq : (d == " ") = false := by simpa using hsp
      refine ⟨false, ?_, fun h => Bool.noConfusion h, ?_⟩
      · simp only [firstTrue, guardedCell, e1, e2, e3, hd, hbeq]
        rfl
      · intro hh; exfalso; revert hh; rintro (h | h | h)
        · exact ok_ne_blank hd hsp h.2.2
        · omega
        · omega
  · have e1 := decide_eq_false g1
    by_cases g2 : fromCol = toCol ∧ toRow = fromRow - 2 ∧ fromRow = 6
    · have e2 := decide_eq_true g2
      have e3 : decide (abs (toCol - fromCol) = 1 ∧ toRow = fromRow - 1) = false :=
        decide_eq_false (by rw [habs]; omega)
      obtain ⟨m, hm⟩ := index_inBounds board toCol (fromRow - 1)
        ⟨ht.1, ht.2.1, by omega, by omega⟩
      have hm2 : index board (fromRow - 1) fromCol = Except.ok m := by rw [g2.1]; exact hm
      by_cases hmp : m = " "
      · by_cases hsp : d = " "
        · subst hsp; subst hmp
          refine ⟨true, ?_, fun _ => Or.inr (Or.inl ⟨g2.1, g2.2.1, g2.2.2, hm2, hd⟩),
            fun _ => rfl⟩
          simp only [firstTrue, guardedCell, e1, e2, hd, hm]
          rfl
        · have hbeq : (d == " ") = false := by simpa using hsp
          subst hmp
          refine ⟨false, ?_, fun h => Bool.noConfusion h, ?_⟩
          · simp only [firstTrue, guardedCell, e1, e2, e3, hd, hm, hbeq]
            rfl
          · intro hh; exfalso; revert hh; rintro (h | h | h)
            · exact g1 ⟨h.1, h.2.1⟩
            · exact ok_ne_blank hd hsp h.2.2.2.2
            · omega
      · have hbeq : (m == " ") = false := by simpa using hmp
        refine ⟨false, ?_, fun h => Bool.noConfusion h, ?_⟩
        · simp only [firstTrue, guardedCell, e1, e2, e3, hm, hbeq]
          rfl
        · intro hh; exfalso; revert hh; rintro (h | h | h)
          · exact g1 ⟨h.1, h.2.1⟩
          · exact ok_ne_blank hm2 hmp h.2.2.2.1
          · omega
    · have e2 := decide_eq_false g2
      by_cases g3 : abs (toCol - fromCol) = 1 ∧ toRow = fromRow - 1
      · have e3 := decide_eq_true g3
        by_cases hsp : d = " "
        · subst hsp
          refine ⟨false, ?_, fun h => Bool.noConfusion h, ?_⟩
          · simp only [firstTrue, guardedCell, e1, e2, e3, hd]
            rfl
          · intro hh; exfalso; revert hh; rintro (h | h | ⟨_, _, s, hs, hne, _⟩)
            · exact g1 ⟨h.1, h.2.1⟩
            · exact g2 ⟨h.1, h.2.1, h.2.2.1⟩
            · rw [hd] at hs; exact hne (Except.ok.inj hs).symm
        · have hbne : (d != " ") = true := by simpa using hsp
          by_cases hup : isUpper d = false
          · refine ⟨true, ?_, fun _ => Or.inr (Or.inr ⟨habs.mp g3.1, g3.2, d, hd, hsp, hup⟩),
              fun _ => rfl⟩
            simp only [firstTrue, guardedCell, e1, e2, e3, hd, hbne, hup]
            rfl
          · have hup2 : isUpper d = true := by simpa using hup
            refine ⟨false, ?_, fun h => Bool.noConfusion h, ?_⟩
            · simp only [firstTrue, guardedCell, e1, e2, e3, hd, hbne, hup2]
              rfl
            · intro hh; exfalso; revert hh; rintro (h | h | ⟨_, _, s, hs, _, hu⟩)
              · exact g1 ⟨h.1, h.2.1⟩
              · exact g2 ⟨h.1, h.2.1, h.2.2.1⟩
              · rw [hd] at hs; rw [← Except.ok.inj hs] at hu; exact hup hu
      · have e3 := decide_eq_false g3
        refine ⟨false, ?_, fun h => Bool.noConfusion h, ?_⟩
        · simp only [firstTrue, guardedCell, e1, e2, e3]
          rfl
        · intro hh; exfalso; revert hh; rintro (h | h | h)
          · exact g1 ⟨h.1, h.2.1⟩
          · exact g2 ⟨h.1, h.2.1, h.2.2.1⟩
          · exact g3 ⟨habs.mpr h.1, h.2.1⟩

theorem marker_ne_blank (u : Bool) (k : Kind) : marker u k ≠ " " := by
  cases u <;> cases k <;> decide

theorem isUpper_marker (u : Bool) (k : Kind) : isUpper (marker u k) = u := by
  cases u <;> cases k <;> rfl

theorem legal_index {board : ChessBoard} (hl : legalBoard board) {row col : Int} {s : String}
    (h : index board row col = Except.ok s) :
    s = " " ∨ ∃ (u : Bool) (k : Kind), s = marker u k := by
  unfold index at h
  split at h
  · rw [← Except.ok.inj h]; exact hl _ _
  · cases h

/-- On a legal board, a cell is occupied by a piece of side `u` exactly when it is not blank
and `isUpper` answers `u`. -/
theorem occupied_by_side {board : ChessBoard} (hl : legalBoard board) (row col : Int) (u : Bool) :
    (∃ s, index board row col = Except.ok s ∧ s ≠ " " ∧ isUpper s = u) ↔
      ∃ k, index board row col = Except.ok (marker u k) := by
  constructor
  · rintro ⟨s, hs, hne, hu⟩
    rcases legal_index hl hs with rfl | ⟨u', k, rfl⟩
    · exact absurd rfl hne
    · rw [isUpper_marker] at hu
      subst hu
      exact ⟨k, hs⟩
  · rintro ⟨k, hk⟩
    exact ⟨_, hk, marker_ne_blank u k, isUpper_marker u k⟩

theorem strictlyBetween_ne_dest {fromCol fromRow toCol toRow col row : Int}
    (h : strictlyBetween fromCol fromRow toCol toRow col row) : ¬ (row = toRow ∧ col = toCol) := by
  unfold strictlyBetween at h; omega

theorem strictlyBetween_inBounds {fromCol fromRow toCol toRow col row : Int}
    (hf : inBounds fromCol fromRow) (ht : inBounds toCol toRow)
    (h : strictlyBetween fromCol fromRow toCol toRow col row) : inBounds col row := by
  unfold strictlyBetween at h; unfold inBounds at *; omega

theorem pathClear_setCell_dest (board : ChessBoard) (fromCol fromRow toCol toRow : Int)
    (s : String) :
    pathClear (setCell board toCol toRow s) fromCol fromRow toCol toRow ↔
      pathClear board fromCol fromRow toCol toRow := by
  unfold pathClear
  constructor
  · intro h col row hb
    have := h col row hb
    rw [index_setCell, if_neg (fun hh => strictlyBetween_ne_dest hb ⟨hh.1, hh.2.1⟩)] at this
    exact this
  · intro h col row hb
    rw [index_setCell, if_neg (fun hh => strictlyBetween_ne_dest hb ⟨hh.1, hh.2.1⟩)]
    exact h col row hb

/-- The verdict on a sliding piece of the side to move: a boolean is returned, and it is `true`
exactly when the move is admissible for the kind and the path is clear.  Only the bishop needs
origin and destination to differ. -/
theorem slide_spec (board : ChessBoard) (fuel : Nat) (upperTurn : Bool)
    (fromCol fromRow toCol toRow : Int) (k : Kind)
    (hk : k = Kind.rook ∨ k = Kind.bishop ∨ k = Kind.queen)
    (hf : inBounds fromCol fromRow) (ht : inBounds toCol toRow) (hfuel : 8 ≤ fuel)
    (hne : k = Kind.bishop → ¬ (fromCol = toCol ∧ fromRow = toRow))
    (hp : index board fromRow fromCol = Except.ok (marker upperTurn k)) :
    ∃ b, isValidMove fuel upperTurn fromCol fromRow toCol toRow board = Except.ok b ∧
      (b = true ↔ admissible k fromCol fromRow toCol toRow ∧
        pathClear board fromCol fromRow toCol toRow) := by
  rw [isValidMove_dispatch board fuel upperTurn fromCol fromRow toCol toRow k hf ht hp]
  rcases hk with rfl | rfl | rfl
  · exact isValidRookMove_spec board fuel fromCol fromRow toCol toRow hf ht hfuel
  · exact isValidBishopMove_spec board fuel fromCol fromRow toCol toRow hf ht hfuel (hne rfl)
  · exact isValidQueenMove_spec board fuel fromCol fromRow toCol toRow hf ht hfuel

theorem admissible_slider {k : Kind} {fromCol fromRow toCol toRow : Int}
    (h : admissible k fromCol fromRow toCol toRow) :
    k = Kind.rook ∨ k = Kind.bishop ∨ k = Kind.queen := by
  cases k <;> simp [admissible] at h ⊢

/-! The claims -/

/-- C1 (counter-evidence): on the initial board with the upper side to move, the zero-length
move of the bishop on column 2, row 7 does not return a boolean: the diagonal walk of
`isValidBishopMove` starts at row 8, column 3 and reads the board outside rows `0..7`, which
is the index panic, whatever the fuel. -/
theorem C1_bishop_null_move_panics (fuel : Nat) :
    isValidMove (fuel + 1) true 2 7 2 7 initializeBoard = Except.error Fault.indexOutOfRange := by
  rfl

/-- C2: a piece of the side that is not to move on the origin (a lower-case piece while the
upper side is to move, an upper-case piece while the lower side is to move) makes
`isValidMove` return `false`, whatever the destination.  That the origin is on the board is
part of `hp`; the destination may be any pair of integers. -/
theorem C2_wrong_side_rejected (board : ChessBoard) (fuel : Nat) (upperTurn : Bool)
    (fromCol fromRow toCol toRow : Int) (k : Kind)
    (hp : index board fromRow fromCol = Except.ok (marker (!upperTurn) k)) :
    isValidMove fuel upperTurn fromCol fromRow toCol toRow board = Except.ok false :=
  isValidMove_wrongSide board fuel upperTurn fromCol fromRow toCol toRow k hp

/-- C2 at a concrete input: the lower pawn on column 4, row 1 of the initial board, upper side to move. -/
theorem C2_wrong_side_rejected_witness :
    isValidMove 8 true 4 1 4 3 initializeBoard = Except.ok false :=
  C2_wrong_side_rejected initializeBoard 8 true 4 1 4 3 Kind.pawn rfl

/-- C3: for a rook, bishop or queen of the side to move and a move that is admissible for its
kind, a non-blank cell on a square strictly between origin and destination makes
`isValidMove` return `false`. -/
theorem C3_blocked_slide_rejected (board : ChessBoard) (fuel : Nat) (upperTurn : Bool)
    (fromCol fromRow toCol toRow col row : Int) (k : Kind) (s : String)
    (hfuel : 8 ≤ fuel)
    (hf : inBounds fromCol fromRow) (ht : inBounds toCol toRow)
    (hp : index board fromRow fromCol = Except.ok (marker upperTurn k))
    (hadm : admissible k fromCol fromRow toCol toRow)
    (hbt : strictlyBetween fromCol fromRow toCol toRow col row)
    (hocc : index board row col = Except.ok s) (hs : s ≠ " ") :
    isValidMove fuel upperTurn fromCol fromRow toCol toRow board = Except.ok false := by
  have hne : k = Kind.bishop → ¬ (fromCol = toCol ∧ fromRow = toRow) := by
    intro _ h
    unfold strictlyBetween at hbt; omega
  obtain ⟨b, hb, hiff⟩ := slide_spec board fuel upperTurn fromCol fromRow toCol toRow k
    (admissible_slider hadm) hf ht hfuel hne hp
  cases b with
  | false => exact hb
  | true => exact absurd ((hiff.mp rfl).2 col row hbt) (ok_ne_blank hocc hs)

/-- C3 at a concrete input: the upper rook on column 0, row 7 of the initial board, blocked by the pawn on row 6. -/
theorem C3_blocked_slide_rejected_witness :
    isValidMove 8 true 0 7 0 4 initializeBoard = Except.ok false :=
  C3_blocked_slide_rejected initializeBoard 8 true 0 7 0 4 0 6 Kind.rook "P" (by decide)
    (by decide) (by decide) rfl (Or.inr rfl) (by decide) rfl (by decide)

/-- C4: on a board of legal markers, with a pawn of the side to move on an in-bounds origin
and an in-bounds destination, `isValidMove` returns a boolean, and it is `true` exactly in
three cases: single push (same column, one row forward, destination blank), double push (same
column, two rows forward, origin on the side's starting row, intermediate square and
destination blank), capture (column differs by exactly 1, one row forward, destination holds a
piece of the other side).  Forward is `-1` with starting row 6 for the upper side and `+1`
with starting row 1 for the lower side. -/
theorem C4_pawn_move_iff (board : ChessBoard) (fuel : Nat) (upperTurn : Bool)
    (fromCol fromRow toCol toRow : Int)
    (hl : legalBoard board)
    (hf : inBounds fromCol fromRow) (ht : inBounds toCol toRow)
    (hp : index board fromRow fromCol = Except.ok (marker upperTurn Kind.pawn)) :
    ∃ b, isValidMove fuel upperTurn fromCol fromRow toCol toRow board = Except.ok b ∧
      (b = true ↔
        (fromCol = toCol ∧ toRow = fromRow + forward upperTurn ∧
          index board toRow toCol = Except.ok " ") ∨
        (fromCol = toCol ∧ toRow = fromRow + 2 * forward upperTurn ∧
          fromRow = startRow upperTurn ∧
          index board (fromRow + forward upperTurn) fromCol = Except.ok " " ∧
          index board toRow toCol = Except.ok " ") ∨
        ((toCol - fromCol).natAbs = 1 ∧ toRow = fromRow + forward upperTurn ∧
          ∃ k, index board toRow toCol = Except.ok (marker (!upperTurn) k))) := by
  rw [isValidMove_dispatch board fuel upperTurn fromCol fromRow toCol toRow Kind.pawn hf ht hp]
  cases upperTurn with
  | false =>
    obtain ⟨b, hb, hiff⟩ := lowerPawnCase_spec board fromCol fromRow toCol toRow ht
    refine ⟨b, hb, ?_⟩
    rw [hiff, occupied_by_side hl toRow toCol true]
    simp only [forward, startRow, Bool.false_eq_true, if_false, Bool.not_false, mul_one]
  | true =>
    obtain ⟨b, hb, hiff⟩ := upperPawnCase_spec board fromCol fromRow toCol toRow ht
    refine ⟨b, hb, ?_⟩
    rw [hiff, occupied_by_side hl toRow toCol false]
    simp only [forward, startRow, if_true, Bool.not_true, mul_neg, mul_one, Int.sub_eq_add_neg]

theorem initializeBoard_legal : legalBoard initializeBoard := by
  intro row col
  fin_cases row <;> fin_cases col <;>
    first
      | exact Or.inl rfl
      | exact Or.inr ⟨true, Kind.pawn, rfl⟩
      | exact Or.inr ⟨true, Kind.rook, rfl⟩
      | exact Or.inr ⟨true, Kind.knight, rfl⟩
      | exact Or.inr ⟨true, Kind.bishop, rfl⟩
      | exact Or.inr ⟨true, Kind.queen, rfl⟩
      | exact Or.inr ⟨true, Kind.king, rfl⟩
      | exact Or.inr ⟨false, Kind.pawn, rfl⟩
      | exact Or.inr ⟨false, Kind.rook, rfl⟩
      | exact Or.inr ⟨false, Kind.knight, rfl⟩
      | exact Or.inr ⟨false, Kind.bishop, rfl⟩
      | exact Or.inr ⟨false, Kind.queen, rfl⟩
      | exact Or.inr ⟨false, Kind.king, rfl⟩

/-- C4 at a concrete input: the double push of the upper pawn on column 4 of the initial board. -/
theorem C4_pawn_move_iff_witness :
    isValidMove 8 true 4 6 4 4 initializeBoard = Except.ok true := by
  obtain ⟨b, hb, hiff⟩ := C4_pawn_move_iff initializeBoard 8 true 4 6 4 4 initializeBoard_legal
    (by decide) (by decide) rfl
  have hbt : b = true := hiff.mpr (Or.inr (Or.inl ⟨rfl, by decide, by decide, rfl, rfl⟩))
  rw [hb, hbt]

/-- C5: with a pawn of the side to move on its side's starting row, in any column, the
two-square forward move in the same column is accepted when the intermediate square and the
destination are both blank, and rejected when either of them is not. -/
theorem C5_double_push (board : ChessBoard) (fuel : Nat) (upperTurn : Bool) (col : Int)
    (hp : index board (startRow upperTurn) col = Except.ok (marker upperTurn Kind.pawn)) :
    ((index board (startRow upperTurn + forward upperTurn) col = Except.ok " " ∧
        index board (startRow upperTurn + 2 * forward upperTurn) col = Except.ok " ") →
      isValidMove fuel upperTurn col (startRow upperTurn) col
        (startRow upperTurn + 2 * forward upperTurn) board = Except.ok true) ∧
    (¬ (index board (startRow upperTurn + forward upperTurn) col = Except.ok " " ∧
        index board (startRow upperTurn + 2 * forward upperTurn) col = Except.ok " ") →
      isValidMove fuel upperTurn col (startRow upperTurn) col
        (startRow upperTurn + 2 * forward upperTurn) board = Except.ok false) := by
  have hf := index_ok_inBounds hp
  have hc : 0 ≤ col ∧ col < 8 := ⟨hf.1, hf.2.1⟩
  cases upperTurn with
  | false =>
    have ht : inBounds col (startRow false + 2 * forward false) :=
      ⟨hc.1, hc.2, by decide, by decide⟩
    rw [isValidMove_dispatch board fuel false col _ col _ Kind.pawn hf ht hp]
    obtain ⟨b, hb, hiff⟩ := lowerPawnCase_spec board col (startRow false) col
      (startRow false + 2 * forward false) ht
    simp only [startRow, forward, Bool.false_eq_true, if_false] at hb hiff ⊢
    norm_num at hb hiff ⊢
    rw [hb]
    cases b with
    | true => simpa using hiff
    | false => simpa using hiff
  | true =>
    have ht : inBounds col (startRow true + 2 * forward true) :=
      ⟨hc.1, hc.2, by decide, by decide⟩
    rw [isValidMove_dispatch board fuel true col _ col _ Kind.pawn hf ht hp]
    obtain ⟨b, hb, hiff⟩ := upperPawnCase_spec board col (startRow true) col
      (startRow true + 2 * forward true) ht
    simp only [startRow, forward, if_true] at hb hiff ⊢
    norm_num at hb hiff ⊢
    rw [hb]
    cases b with
    | true => simpa using hiff
    | false => simpa using hiff

/-- C5 at a concrete input: the double push of the lower pawn on column 4 of the initial board. -/
theorem C5_double_push_witness :
    isValidMove 8 false 4 1 4 3 initializeBoard = Except.ok true :=
  (C5_double_push initializeBoard 8 false 4 rfl).1 ⟨rfl, rfl⟩

/-- C6: with a knight of the side to move on an in-bounds origin and an in-bounds
destination, `isValidMove` returns a boolean, and it is `true` exactly when
(|row delta|, |column delta|) is (1,2) or (2,1); the verdict is the same on every other board
that has the same knight on the origin, so no other square is taken into account. -/
theorem C6_knight_move_iff (board : ChessBoard) (fuel : Nat) (upperTurn : Bool)
    (fromCol fromRow toCol toRow : Int)
    (hf : inBounds fromCol fromRow) (ht : inBounds toCol toRow)
    (hp : index board fromRow fromCol = Except.ok (marker upperTurn Kind.knight)) :
    (∃ b, isValidMove fuel upperTurn fromCol fromRow toCol toRow board = Except.ok b ∧
      (b = true ↔
        ((toRow - fromRow).natAbs = 1 ∧ (toCol - fromCol).natAbs = 2) ∨
        ((toRow - fromRow).natAbs = 2 ∧ (toCol - fromCol).natAbs = 1))) ∧
    (∀ other : ChessBoard,
      index other fromRow fromCol = Except.ok (marker upperTurn Kind.knight) →
      isValidMove fuel upperTurn fromCol fromRow toCol toRow other =
        isValidMove fuel upperTurn fromCol fromRow toCol toRow board) := by
  have hgate : ¬ (toRow < 0 ∨ toRow ≥ boardSize ∨ toCol < 0 ∨ toCol ≥ boardSize) := by
    unfold inBounds at ht; unfold boardSize; omega
  constructor
  · rw [isValidMove_dispatch board fuel upperTurn fromCol fromRow toCol toRow Kind.knight hf ht hp]
    refine ⟨_, rfl, ?_⟩
    unfold isValidKnightMove
    rw [if_neg hgate]
    simp only [decide_eq_true_eq, abs_eq_natAbs]
    omega
  · intro other ho
    rw [isValidMove_dispatch board fuel upperTurn fromCol fromRow toCol toRow Kind.knight hf ht hp,
      isValidMove_dispatch other fuel upperTurn fromCol fromRow toCol toRow Kind.knight hf ht ho]
    rfl

/-- C6 at a concrete input: the upper knight on column 1, row 7 of the initial board jumps to column 2, row 5. -/
theorem C6_knight_move_iff_witness :
    isValidMove 8 true 1 7 2 5 initializeBoard = Except.ok true := by
  obtain ⟨b, hb, hiff⟩ := (C6_knight_move_iff initializeBoard 8 true 1 7 2 5
    (by decide) (by decide) rfl).1
  have hbt : b = true := hiff.mpr (Or.inr ⟨by decide, by decide⟩)
  rw [hb, hbt]

/-- C7: with a king of the side to move on an in-bounds origin and an in-bounds destination,
`isValidMove` returns a boolean, and it is `true` exactly when |row delta| <= 1 and
|column delta| <= 1; in particular such a move is accepted when the destination holds a piece
of the mover's own side. -/
theorem C7_king_move_iff (board : ChessBoard) (fuel : Nat) (upperTurn : Bool)
    (fromCol fromRow toCol toRow : Int)
    (hf : inBounds fromCol fromRow) (ht : inBounds toCol toRow)
    (hp : index board fromRow fromCol = Except.ok (marker upperTurn Kind.king)) :
    (∃ b, isValidMove fuel upperTurn fromCol fromRow toCol toRow board = Except.ok b ∧
      (b = true ↔ (toRow - fromRow).natAbs ≤ 1 ∧ (toCol - fromCol).natAbs ≤ 1)) ∧
    (∀ k : Kind, index board toRow toCol = Except.ok (marker upperTurn k) →
      (toRow - fromRow).natAbs ≤ 1 → (toCol - fromCol).natAbs ≤ 1 →
      isValidMove fuel upperTurn fromCol fromRow toCol toRow board = Except.ok true) := by
  have hgate : ¬ (toRow < 0 ∨ toRow ≥ boardSize ∨ toCol < 0 ∨ toCol ≥ boardSize) := by
    unfold inBounds at ht; unfold boardSize; omega
  have hking : isValidKingMove fromCol fromRow toCol toRow board = true ↔
      (toRow - fromRow).natAbs ≤ 1 ∧ (toCol - fromCol).natAbs ≤ 1 := by
    unfold isValidKingMove
    rw [if_neg hgate]
    simp only [abs_eq_natAbs]
    split
    · rename_i h; simp only [true_iff]; omega
    · rename_i h; simp only [Bool.false_eq_true, false_iff]; omega
  rw [isValidMove_dispatch board fuel upperTurn fromCol fromRow toCol toRow Kind.king hf ht hp]
  refine ⟨⟨_, rfl, hking⟩, ?_⟩
  intro k _ h1 h2
  simp only
  rw [hking.mpr ⟨h1, h2⟩]

/-- C7 at a concrete input: the upper king on column 4, row 0 steps onto its own pawn on column 4, row 1. -/
theorem C7_king_move_iff_witness :
    isValidMove 8 true 4 0 4 1 kingBeforeOwnPawn = Except.ok true :=
  (C7_king_move_iff kingBeforeOwnPawn 8 true 4 0 4 1 (by decide) (by decide) rfl).2
    Kind.pawn rfl (by decide) (by decide)

/-- C8: with a rook, bishop or queen of the side to move on an in-bounds origin and a
different in-bounds destination, `isValidMove` returns a boolean, and it is `true` exactly
when the move is admissible for the kind and every square strictly between origin and
destination is blank; replacing the content of the destination square does not change the
verdict. -/
theorem C8_slide_move_iff (board : ChessBoard) (fuel : Nat) (upperTurn : Bool)
    (fromCol fromRow toCol toRow : Int) (k : Kind)
    (hfuel : 8 ≤ fuel)
    (hk : k = Kind.rook ∨ k = Kind.bishop ∨ k = Kind.queen)
    (hf : inBounds fromCol fromRow) (ht : inBounds toCol toRow)
    (hne : ¬ (fromCol = toCol ∧ fromRow = toRow))
    (hp : index board fromRow fromCol = Except.ok (marker upperTurn k)) :
    (∃ b, isValidMove fuel upperTurn fromCol fromRow toCol toRow board = Except.ok b ∧
      (b = true ↔ admissible k fromCol fromRow toCol toRow ∧
        pathClear board fromCol fromRow toCol toRow)) ∧
    (∀ s : String,
      isValidMove fuel upperTurn fromCol fromRow toCol toRow (setCell board toCol toRow s) =
        isValidMove fuel upperTurn fromCol fromRow toCol toRow board) := by
  have hspec := slide_spec board fuel upperTurn fromCol fromRow toCol toRow k hk hf ht hfuel
    (fun _ => hne) hp
  refine ⟨hspec, ?_⟩
  intro s
  have hp2 : index (setCell board toCol toRow s) fromRow fromCol
      = Except.ok (marker upperTurn k) := by
    rw [index_setCell, if_neg (fun h => hne ⟨h.2.1, h.1⟩)]; exact hp
  obtain ⟨b, hb, hiff⟩ := hspec
  obtain ⟨b2, hb2, hiff2⟩ := slide_spec (setCell board toCol toRow s) fuel upperTurn
    fromCol fromRow toCol toRow k hk hf ht hfuel (fun _ => hne) hp2
  rw [pathClear_setCell_dest] at hiff2
  have : b2 = b := by
    cases b <;> cases b2 <;> simp_all
  rw [hb, hb2, this]

/-- C8 at a concrete input: the upper rook on column 0, row 7 of the initial board moving to column 1, row 7, with the destination as it is and blanked. -/
theorem C8_slide_move_iff_witness :
    isValidMove 8 true 0 7 1 7 (setCell initializeBoard 1 7 " ") =
      isValidMove 8 true 0 7 1 7 initializeBoard :=
  (C8_slide_move_iff initializeBoard 8 true 0 7 1 7 Kind.rook (by decide) (Or.inl rfl)
    (by decide) (by decide) (by decide) rfl).2 " "

/-- C9 (counter-evidence): on the initial board with the upper side to move, the rook on
column 0, row 7 may move onto the knight of its own side on column 1, row 7: `isValidMove`
returns `true`, not `false`. -/
theorem C9_own_piece_capture_accepted :
    inBounds 0 7 ∧ inBounds 1 7 ∧
    index initializeBoard 7 0 = Except.ok (marker true Kind.rook) ∧
    index initializeBoard 7 1 = Except.ok (marker true Kind.knight) ∧
    isValidMove 8 true 0 7 1 7 initializeBoard = Except.ok true ∧
    isValidMove 8 true 0 7 1 7 initializeBoard ≠ Except.ok false :=
  ⟨by decide, by decide, rfl, rfl, rfl, fun h => by cases h⟩

/-- C9 (amended): for a rook, bishop or queen of the side to move on an in-bounds origin and a
different in-bounds destination that holds a piece of the mover's own side, the piece on the
destination does not enter the verdict: `isValidMove` returns `true` when the move is
admissible for the kind and every square strictly between is blank, and `false` otherwise. -/
theorem C9_own_piece_destination (board : ChessBoard) (fuel : Nat) (upperTurn : Bool)
    (fromCol fromRow toCol toRow : Int) (k own : Kind)
    (hfuel : 8 ≤ fuel)
    (hk : k = Kind.rook ∨ k = Kind.bishop ∨ k = Kind.queen)
    (hf : inBounds fromCol fromRow) (ht : inBounds toCol toRow)
    (hne : ¬ (fromCol = toCol ∧ fromRow = toRow))
    (hp : index board fromRow fromCol = Except.ok (marker upperTurn k))
    (_hd : index board toRow toCol = Except.ok (marker upperTurn own)) :
    ((admissible k fromCol fromRow toCol toRow ∧ pathClear board fromCol fromRow toCol toRow) →
      isValidMove fuel upperTurn fromCol fromRow toCol toRow board = Except.ok true) ∧
    (¬ (admissible k fromCol fromRow toCol toRow ∧ pathClear board fromCol fromRow toCol toRow) →
      isValidMove fuel upperTurn fromCol fromRow toCol toRow board = Except.ok false) := by
  obtain ⟨b, hb, hiff⟩ := slide_spec board fuel upperTurn fromCol fromRow toCol toRow k hk hf ht
    hfuel (fun _ => hne) hp
  rw [hb]
  cases b with
  | true => exact ⟨fun _ => rfl, fun h => absurd (hiff.mp rfl) h⟩
  | false => exact ⟨fun h => absurd (hiff.mpr h) (by simp), fun _ => rfl⟩

/-- C9 (amended) at a concrete input: the upper queen of the initial board moving onto its own pawn in front of it. -/
theorem C9_own_piece_destination_witness :
    isValidMove 8 true 3 7 3 6 initializeBoard = Except.ok true :=
  (C9_own_piece_destination initializeBoard 8 true 3 7 3 6 Kind.queen Kind.pawn (by decide)
    (Or.inr (Or.inr rfl)) (by decide) (by decide) (by decide) rfl rfl).1
    ⟨Or.inr (Or.inl rfl), fun col row h => absurd h (by unfold strictlyBetween; omega)⟩

/-- C10: with a king, rook or queen of the side to move on an in-bounds square, the
zero-length move on that square (origin equal to destination) makes `isValidMove` return
`true`. -/
theorem C10_null_move_accepted (board : ChessBoard) (fuel : Nat) (upperTurn : Bool)
    (col row : Int) (k : Kind)
    (hfuel : 0 < fuel)
    (hk : k = Kind.king ∨ k = Kind.rook ∨ k = Kind.queen)
    (hp : index board row col = Except.ok (marker upperTurn k)) :
    isValidMove fuel upperTurn col row col row board = Except.ok true := by
  have hf := index_ok_inBounds hp
  have hgate : ¬ (row < 0 ∨ row ≥ boardSize ∨ col < 0 ∨ col ≥ boardSize) := by
    unfold inBounds at hf; unfold boardSize; omega
  obtain ⟨m, rfl⟩ : ∃ m, fuel = m + 1 := ⟨fuel - 1, by omega⟩
  have hwalk : rowWalk board row (max col col) (m + 1) (min col col + 1) = Except.ok true := by
    have h1 : max col col = col := by unfold max; split <;> rfl
    have h2 : min col col = col := by unfold min; split <;> rfl
    rw [h1, h2]
    unfold rowWalk
    rw [if_neg (by omega)]
  rw [isValidMove_dispatch board (m + 1) upperTurn col row col row k hf hf hp]
  rcases hk with rfl | rfl | rfl
  · simp only [isValidKingMove, if_neg hgate, sub_self, abs]
    rfl
  · simp only [isValidRookMove, if_neg hgate, true_or, if_true]
    exact hwalk
  · simp only [isValidQueenMove, if_neg hgate, true_or, if_true]
    exact hwalk

/-- C10 at a concrete input: the zero-length move of the upper queen of the initial board. -/
theorem C10_null_move_accepted_witness :
    isValidMove 8 true 3 7 3 7 initializeBoard = Except.ok true :=
  C10_null_move_accepted initializeBoard 8 true 3 7 Kind.queen (by decide)
    (Or.inr (Or.inr rfl)) rfl

/-- The bounds gate: with a coordinate outside `0..7` the answer is `false` on every board. -/
theorem isValidMove_gate (board : ChessBoard) (fuel : Nat) (upperTurn : Bool)
    (fromCol fromRow toCol toRow : Int)
    (h : ¬ (inBounds fromCol fromRow ∧ inBounds toCol toRow)) :
    isValidMove fuel upperTurn fromCol fromRow toCol toRow board = Except.ok false := by
  have hgate : fromCol < 0 ∨ fromCol ≥ boardSize ∨ fromRow < 0 ∨ fromRow ≥ boardSize ∨
      toCol < 0 ∨ toCol ≥ boardSize ∨ toRow < 0 ∨ toRow ≥ boardSize := by
    unfold inBounds at h; unfold boardSize; omega
  unfold isValidMove
  rw [if_pos hgate]

/-- A blank origin is rejected on either turn. -/
theorem isValidMove_blank_origin (board : ChessBoard) (fuel : Nat) (upperTurn : Bool)
    (fromCol fromRow toCol toRow : Int)
    (hp : index board fromRow fromCol = Except.ok " ") :
    isValidMove fuel upperTurn fromCol fromRow toCol toRow board = Except.ok false := by
  unfold isValidMove
  split
  · rfl
  · simp only [hp]
    cases upperTurn <;> rfl

/-- An accepted move has both squares on the board. -/
theorem isValidMove_true_inBounds {board : ChessBoard} {fuel : Nat} {upperTurn : Bool}
    {fromCol fromRow toCol toRow : Int}
    (h : isValidMove fuel upperTurn fromCol fromRow toCol toRow board = Except.ok true) :
    inBounds fromCol fromRow ∧ inBounds toCol toRow := by
  by_contra hn
  rw [isValidMove_gate board fuel upperTurn fromCol fromRow toCol toRow hn] at h
  cases h

/-- C11: when any of the four coordinates lies outside `0..7`, `isValidMove` returns `false`,
for either value of the turn flag, and it does so on every board alike: the bounds gate
answers before the board is read. -/
theorem C11_out_of_range_rejected (board : ChessBoard) (fuel : Nat) (upperTurn : Bool)
    (fromCol fromRow toCol toRow : Int)
    (h : ¬ (inBounds fromCol fromRow ∧ inBounds toCol toRow)) :
    isValidMove fuel upperTurn fromCol fromRow toCol toRow board = Except.ok false ∧
    ∀ other : ChessBoard,
      isValidMove fuel upperTurn fromCol fromRow toCol toRow other =
        isValidMove fuel upperTurn fromCol fromRow toCol toRow board := by
  have hall := fun b : ChessBoard =>
    isValidMove_gate b fuel upperTurn fromCol fromRow toCol toRow h
  exact ⟨hall board, fun other => by rw [hall other, hall board]⟩

/-- C11 at a concrete input: column 8 as destination on the initial board. -/
theorem C11_out_of_range_rejected_witness :
    isValidMove 8 true 4 6 8 5 initializeBoard = Except.ok false :=
  (C11_out_of_range_rejected initializeBoard 8 true 4 6 8 5 (by decide)).1

/-- C12: when the origin square holds the blank marker, `isValidMove` returns `false` for
both values of the turn flag and any destination, although `isUpper` classifies the blank
marker as upper-side. -/
theorem C12_blank_origin_rejected (board : ChessBoard) (fuel : Nat)
    (fromCol fromRow toCol toRow : Int)
    (hp : index board fromRow fromCol = Except.ok " ") :
    (∀ upperTurn : Bool,
      isValidMove fuel upperTurn fromCol fromRow toCol toRow board = Except.ok false) ∧
    isUpper " " = true :=
  ⟨fun upperTurn => isValidMove_blank_origin board fuel upperTurn fromCol fromRow toCol toRow hp,
    rfl⟩

/-- C12 at a concrete input: the blank square on column 4, row 3 of the initial board, lower
side to move. -/
theorem C12_blank_origin_rejected_witness :
    isValidMove 8 false 4 3 4 4 initializeBoard = Except.ok false :=
  (C12_blank_origin_rejected initializeBoard 8 4 3 4 4 rfl).1 false

/-- C13 (counter-evidence): on the initial board with the upper side to move, the move from
column 4, row 1 to column 4, row 3 (e2 to e4) is rejected: row 1 holds the pawns of the lower
side. -/
theorem C13_e2e4_rejected_for_upper :
    initialState.upperTurn = true ∧
    index initialState.board 1 4 = Except.ok (marker false Kind.pawn) ∧
    isValidMove 8 initialState.upperTurn 4 1 4 3 initialState.board = Except.ok false ∧
    isValidMove 8 initialState.upperTurn 4 1 4 3 initialState.board ≠ Except.ok true :=
  ⟨rfl, rfl, rfl, fun h => by cases h⟩

/-- C13 (amended): on the initial board the pawns of the upper side stand on row 6 and those
of the lower side on row 1: a square holds an upper pawn exactly when it is on row 6, and a
lower pawn exactly when it is on row 1.  With the upper side to move, the double push of its
pawn on column 4, from row 6 to row 4 (e7 to e5), is accepted; the move from column 4, row 1
to column 4, row 3 (e2 to e4) is accepted with the lower side to move and rejected with the
upper side to move. -/
theorem C13_initial_double_push (fuel : Nat) :
    (∀ row col : Fin 8, initializeBoard row col = marker true Kind.pawn ↔ row.val = 6) ∧
    (∀ row col : Fin 8, initializeBoard row col = marker false Kind.pawn ↔ row.val = 1) ∧
    isValidMove fuel true 4 6 4 4 initializeBoard = Except.ok true ∧
    isValidMove fuel false 4 1 4 3 initializeBoard = Except.ok true ∧
    isValidMove fuel true 4 1 4 3 initializeBoard = Except.ok false :=
  ⟨by decide, by decide, rfl, rfl, rfl⟩

/-- C14: the initial board has 32 occupied and 32 blank squares; every square of rows 0, 1, 6
and 7 holds a piece marker and every square of rows 2..5 the blank marker; each side has 8
pawns, 2 rooks, 2 knights, 2 bishops, 1 queen, on column 3, and 1 king, on column 4. -/
theorem C14_initial_layout :
    countCells initializeBoard occupied = 32 ∧
    countCells initializeBoard (fun s => s == " ") = 32 ∧
    (∀ row col : Fin 8, (row.val = 0 ∨ row.val = 1 ∨ row.val = 6 ∨ row.val = 7) →
      ∃ (u : Bool) (k : Kind), initializeBoard row col = marker u k) ∧
    (∀ row col : Fin 8, (2 ≤ row.val ∧ row.val ≤ 5) → initializeBoard row col = " ") ∧
    (∀ u : Bool,
      countCells initializeBoard (fun s => s == marker u Kind.pawn) = 8 ∧
      countCells initializeBoard (fun s => s == marker u Kind.rook) = 2 ∧
      countCells initializeBoard (fun s => s == marker u Kind.knight) = 2 ∧
      countCells initializeBoard (fun s => s == marker u Kind.bishop) = 2 ∧
      countCells initializeBoard (fun s => s == marker u Kind.queen) = 1 ∧
      countCells initializeBoard (fun s => s == marker u Kind.king) = 1) ∧
    index initializeBoard 7 3 = Except.ok (marker true Kind.queen) ∧
    index initializeBoard 0 3 = Except.ok (marker false Kind.queen) ∧
    index initializeBoard 7 4 = Except.ok (marker true Kind.king) ∧
    index initializeBoard 0 4 = Except.ok (marker false Kind.king) := by
  refine ⟨by decide, by decide, ?_, by decide, ?_, rfl, rfl, rfl, rfl⟩
  · intro row col hr
    rcases initializeBoard_legal row col with h | h
    · exfalso
      revert row col
      decide
    · exact h
  · intro u
    cases u <;> decide

theorem assign_inBounds (board : ChessBoard) (col row : Int) (s : String)
    (h : inBounds col row) : assign board row col s = Except.ok (setCell board col row s) := by
  unfold assign
  rw [if_pos ⟨h.2.2.1, h.2.2.2, h.1, h.2.1⟩]

/-- What the driver does with an accepted move. -/
theorem mainStep_accept (fuel : Nat) (st : GameState) (fromCol fromRow toCol toRow : Int)
    (piece : String)
    (hacc : isValidMove fuel st.upperTurn fromCol fromRow toCol toRow st.board = Except.ok true)
    (hp : index st.board fromRow fromCol = Except.ok piece) :
    mainStep fuel st fromCol fromRow toCol toRow =
      Except.ok ⟨setCell (setCell st.board toCol toRow piece) fromCol fromRow " ",
        !st.upperTurn⟩ := by
  obtain ⟨hf, ht⟩ := isValidMove_true_inBounds hacc
  unfold mainStep
  simp only [hacc, hp, assign_inBounds _ _ _ _ ht, assign_inBounds _ _ _ _ hf]

/-- What the driver does with a rejected move. -/
theorem mainStep_reject (fuel : Nat) (st : GameState) (fromCol fromRow toCol toRow : Int)
    (hrej : isValidMove fuel st.upperTurn fromCol fromRow toCol toRow st.board = Except.ok false) :
    mainStep fuel st fromCol fromRow toCol toRow = Except.ok st := by
  unfold mainStep
  simp only [hrej]

/-- C15: the flag starts as upper-side-to-move; the step of the driver on a decoded move
negates the flag when `isValidMove` accepts the move and leaves board and flag as they are
when it rejects it; whenever the step yields a state, the flag is negated exactly when the
move was accepted. -/
theorem C15_turn_flips_iff_accepted (fuel : Nat) (st : GameState)
    (fromCol fromRow toCol toRow : Int) :
    initialState.upperTurn = true ∧
    (isValidMove fuel st.upperTurn fromCol fromRow toCol toRow st.board = Except.ok true →
      ∃ next, mainStep fuel st fromCol fromRow toCol toRow = Except.ok next ∧
        next.upperTurn = !st.upperTurn) ∧
    (isValidMove fuel st.upperTurn fromCol fromRow toCol toRow st.board = Except.ok false →
      mainStep fuel st fromCol fromRow toCol toRow = Except.ok st) ∧
    (∀ next, mainStep fuel st fromCol fromRow toCol toRow = Except.ok next →
      (next.upperTurn = (!st.upperTurn) ↔
        isValidMove fuel st.upperTurn fromCol fromRow toCol toRow st.board = Except.ok true)) := by
  have hacc : isValidMove fuel st.upperTurn fromCol fromRow toCol toRow st.board = Except.ok true →
      ∃ next, mainStep fuel st fromCol fromRow toCol toRow = Except.ok next ∧
        next.upperTurn = !st.upperTurn := by
    intro h
    obtain ⟨piece, hp⟩ := index_inBounds st.board _ _ (isValidMove_true_inBounds h).1
    exact ⟨_, mainStep_accept fuel st fromCol fromRow toCol toRow piece h hp, rfl⟩
  refine ⟨rfl, hacc, mainStep_reject fuel st fromCol fromRow toCol toRow, ?_⟩
  intro next hnext
  cases hv : isValidMove fuel st.upperTurn fromCol fromRow toCol toRow st.board with
  | error e =>
    unfold mainStep at hnext
    simp only [hv] at hnext
    cases hnext
  | ok b =>
    cases b with
    | true =>
      obtain ⟨n2, h2, hflip⟩ := hacc hv
      rw [hnext] at h2
      cases h2
      exact ⟨fun _ => rfl, fun _ => hflip⟩
    | false =>
      rw [mainStep_reject fuel st fromCol fromRow toCol toRow hv] at hnext
      cases hnext
      constructor
      · intro h; cases hu : st.upperTurn <;> simp [hu] at h
      · intro h; cases h

/-- C15 at a concrete input: the rejected move from column 4, row 1 to column 4, row 3 leaves
the initial state as it is. -/
theorem C15_turn_flips_iff_accepted_witness :
    mainStep 8 initialState 4 1 4 3 = Except.ok initialState :=
  (C15_turn_flips_iff_accepted 8 initialState 4 1 4 3).2.2.1 rfl

/-- C17: for an in-bounds origin and a different in-bounds destination the three checkers
return booleans, and the one of `isValidQueenMove` is the disjunction of the ones of
`isValidRookMove` and `isValidBishopMove`. -/
theorem C17_queen_is_rook_or_bishop (board : ChessBoard) (fuel : Nat)
    (fromCol fromRow toCol toRow : Int)
    (hfuel : 8 ≤ fuel)
    (hf : inBounds fromCol fromRow) (ht : inBounds toCol toRow)
    (hne : ¬ (fromCol = toCol ∧ fromRow = toRow)) :
    ∃ q r b,
      isValidQueenMove fuel fromCol fromRow toCol toRow board = Except.ok q ∧
      isValidRookMove fuel fromCol fromRow toCol toRow board = Except.ok r ∧
      isValidBishopMove fuel fromCol fromRow toCol toRow board = Except.ok b ∧
      q = (r || b) := by
  obtain ⟨q, hq, hqi⟩ := isValidQueenMove_spec board fuel fromCol fromRow toCol toRow hf ht hfuel
  obtain ⟨r, hr, hri⟩ := isValidRookMove_spec board fuel fromCol fromRow toCol toRow hf ht hfuel
  obtain ⟨b, hb, hbi⟩ := isValidBishopMove_spec board fuel fromCol fromRow toCol toRow hf ht
    hfuel hne
  refine ⟨q, r, b, hq, hr, hb, ?_⟩
  rw [Bool.eq_iff_iff, Bool.or_eq_true, hqi, hri, hbi]
  unfold admissible
  tauto

/-- C17 at a concrete input: the three checkers on the initial board for the move from
column 3, row 7 to column 3, row 4. -/
theorem C17_queen_is_rook_or_bishop_witness :
    ∃ q r b,
      isValidQueenMove 8 3 7 3 4 initializeBoard = Except.ok q ∧
      isValidRookMove 8 3 7 3 4 initializeBoard = Except.ok r ∧
      isValidBishopMove 8 3 7 3 4 initializeBoard = Except.ok b ∧
      q = (r || b) :=
  C17_queen_is_rook_or_bishop initializeBoard 8 3 7 3 4 (by decide) (by decide) (by decide)
    (by decide)

/-- For two different squares of the board `isValidMove` returns a boolean, whatever the
origin holds. -/
theorem isValidMove_total (board : ChessBoard) (fuel : Nat) (upperTurn : Bool)
    (fromCol fromRow toCol toRow : Int)
    (hfuel : 8 ≤ fuel)
    (hf : inBounds fromCol fromRow) (ht : inBounds toCol toRow)
    (hne : ¬ (fromCol = toCol ∧ fromRow = toRow)) :
    ∃ b, isValidMove fuel upperTurn fromCol fromRow toCol toRow board = Except.ok b := by
  have hgate : ¬ (fromCol < 0 ∨ fromCol ≥ boardSize ∨ fromRow < 0 ∨ fromRow ≥ boardSize ∨
      toCol < 0 ∨ toCol ≥ boardSize ∨ toRow < 0 ∨ toRow ≥ boardSize) := by
    unfold inBounds at hf ht; unfold boardSize; omega
  obtain ⟨piece, hp⟩ := index_inBounds board _ _ hf
  unfold isValidMove
  rw [if_neg hgate]
  simp only [hp]
  split_ifs
  · exact ⟨false, rfl⟩
  · obtain ⟨b, hb, _⟩ := lowerPawnCase_spec board fromCol fromRow toCol toRow ht
    exact ⟨b, hb⟩
  · obtain ⟨b, hb, _⟩ := upperPawnCase_spec board fromCol fromRow toCol toRow ht
    exact ⟨b, hb⟩
  · obtain ⟨b, hb, _⟩ := isValidRookMove_spec board fuel fromCol fromRow toCol toRow hf ht hfuel
    exact ⟨b, hb⟩
  · obtain ⟨b, hb, _⟩ := isValidBishopMove_spec board fuel fromCol fromRow toCol toRow hf ht
      hfuel hne
    exact ⟨b, hb⟩
  · exact ⟨_, rfl⟩
  · obtain ⟨b, hb, _⟩ := isValidQueenMove_spec board fuel fromCol fromRow toCol toRow hf ht hfuel
    exact ⟨b, hb⟩
  · exact ⟨_, rfl⟩
  · exact ⟨false, rfl⟩

/-- The squares the diagonal loop reads when its target row is `n` steps away: at most `n` of
them, each one of the first `n` squares of the walk. -/
theorem diagReads_spec (board : ChessBoard) (rowDir colDir toRow : Int) :
    ∀ (n fuel : Nat) (row col : Int), toRow = row + n * rowDir →
      (diagReads board rowDir colDir toRow fuel row col).length ≤ n ∧
      ∀ sq ∈ diagReads board rowDir colDir toRow fuel row col,
        ∃ j : Nat, j < n ∧ sq = (col + j * colDir, row + j * rowDir) := by
  intro n
  induction n with
  | zero =>
    intro fuel row col ht
    have hrow : row = toRow := by simp [ht]
    cases fuel with
    | zero => simp [diagReads]
    | succ m => simp [diagReads, hrow]
  | succ n ih =>
    intro fuel row col ht
    cases fuel with
    | zero => simp [diagReads]
    | succ m =>
      have hrec := ih m (row + rowDir) (col + colDir) (by rw [ht]; push_cast; ring)
      have hhead : ∃ j : Nat, j < n + 1 ∧ (col, row) = (col + j * colDir, row + j * rowDir) :=
        ⟨0, by omega, by simp⟩
      have htail : ∀ sq ∈ diagReads board rowDir colDir toRow m (row + rowDir) (col + colDir),
          ∃ j : Nat, j < n + 1 ∧ sq = (col + j * colDir, row + j * rowDir) := by
        intro sq hsq
        obtain ⟨j, hj, rfl⟩ := hrec.2 sq hsq
        refine ⟨j + 1, by omega, ?_⟩
        push_cast
        congr 1 <;> ring
      unfold diagReads
      split
      · cases hidx : index board row col with
        | error e =>
          simp only [List.length_cons, List.length_nil, List.mem_cons, List.mem_nil_iff,
            or_false]
          exact ⟨by omega, fun sq h => h ▸ hhead⟩
        | ok s =>
          by_cases hs : s = " "
          · simp only [hs, ne_eq, not_true_eq_false, if_false, List.length_cons, List.mem_cons]
            refine ⟨by have := hrec.1; omega, ?_⟩
            rintro sq (h | h)
            · exact h ▸ hhead
            · exact htail sq h
          · simp only [ne_eq, hs, not_false_eq_true, if_true, List.length_cons, List.length_nil,
              List.mem_cons, List.mem_nil_iff, or_false]
            exact ⟨by omega, fun sq h => h ▸ hhead⟩
      · simp

/-- A diagonal move between two different squares, in linear form: the number of steps and
the two unit directions. -/
theorem diag_linear (fromCol fromRow toCol toRow rowDir colDir : Int)
    (hd : (toRow - fromRow).natAbs = (toCol - fromCol).natAbs) (hne : fromRow ≠ toRow)
    (hrd : rowDir = if toRow < fromRow then -1 else 1)
    (hcd : colDir = if toCol < fromCol then -1 else 1) :
    (rowDir = 1 ∨ rowDir = -1) ∧ (colDir = 1 ∨ colDir = -1) ∧
      0 < (toRow - fromRow).natAbs ∧
      toRow = fromRow + ((toRow - fromRow).natAbs : Int) * rowDir ∧
      toCol = fromCol + ((toRow - fromRow).natAbs : Int) * colDir := by
  have hpos : 0 < (toRow - fromRow).natAbs := by omega
  by_cases h1 : toRow < fromRow
  · have e1 : ((toRow - fromRow).natAbs : Int) = fromRow - toRow := by omega
    by_cases h2 : toCol < fromCol
    · have e2 : ((toCol - fromCol).natAbs : Int) = fromCol - toCol := by omega
      rw [if_pos h1] at hrd; rw [if_pos h2] at hcd
      subst hrd; subst hcd
      refine ⟨Or.inr rfl, Or.inr rfl, hpos, ?_, ?_⟩
      · rw [e1]; ring
      · rw [hd, e2]; ring
    · have e2 : ((toCol - fromCol).natAbs : Int) = toCol - fromCol := by omega
      rw [if_pos h1] at hrd; rw [if_neg h2] at hcd
      subst hrd; subst hcd
      refine ⟨Or.inr rfl, Or.inl rfl, hpos, ?_, ?_⟩
      · rw [e1]; ring
      · rw [hd, e2]; ring
  · have e1 : ((toRow - fromRow).natAbs : Int) = toRow - fromRow := by omega
    by_cases h2 : toCol < fromCol
    · have e2 : ((toCol - fromCol).natAbs : Int) = fromCol - toCol := by omega
      rw [if_neg h1] at hrd; rw [if_pos h2] at hcd
      subst hrd; subst hcd
      refine ⟨Or.inl rfl, Or.inr rfl, hpos, ?_, ?_⟩
      · rw [e1]; ring
      · rw [hd, e2]; ring
    · have e2 : ((toCol - fromCol).natAbs : Int) = toCol - fromCol := by omega
      rw [if_neg h1] at hrd; rw [if_neg h2] at hcd
      subst hrd; subst hcd
      refine ⟨Or.inl rfl, Or.inl rfl, hpos, ?_, ?_⟩
      · rw [e1]; ring
      · rw [hd, e2]; ring

/-- The square `j + 1` steps along a diagonal of `n` steps, with `j + 1 < n`, lies strictly
between the two ends. -/
theorem diag_step_between (fromCol fromRow toCol toRow rowDir colDir : Int) (n j : Nat)
    (hr : rowDir = 1 ∨ rowDir = -1) (hc : colDir = 1 ∨ colDir = -1)
    (htr : toRow = fromRow + (n : Int) * rowDir) (htc : toCol = fromCol + (n : Int) * colDir)
    (hj : j + 1 < n) :
    strictlyBetween fromCol fromRow toCol toRow
      (fromCol + colDir + (j : Int) * colDir) (fromRow + rowDir + (j : Int) * rowDir) := by
  have hjn : (j : Int) + 1 < n := by exact_mod_cast hj
  have hj0 : (0 : Int) ≤ j := Int.ofNat_nonneg j
  unfold strictlyBetween
  right; right
  rcases hr with rfl | rfl <;> rcases hc with rfl | rfl <;>
    simp only [mul_neg, mul_one] at htr htc ⊢ <;>
    first
      | exact ⟨Or.inl ⟨by omega, by omega⟩, Or.inl ⟨by omega, by omega⟩⟩
      | exact ⟨Or.inr ⟨by omega, by omega⟩, Or.inl ⟨by omega, by omega⟩⟩
      | exact ⟨Or.inl ⟨by omega, by omega⟩, Or.inr ⟨by omega, by omega⟩⟩
      | exact ⟨Or.inr ⟨by omega, by omega⟩, Or.inr ⟨by omega, by omega⟩⟩

/-- The squares of a diagonal walk between two squares of the board are on the board. -/
theorem diag_step_inBounds (fromCol fromRow toCol toRow rowDir colDir : Int) (n j : Nat)
    (hf : inBounds fromCol fromRow) (ht : inBounds toCol toRow)
    (hr : rowDir = 1 ∨ rowDir = -1) (hc : colDir = 1 ∨ colDir = -1)
    (htr : toRow = fromRow + (n : Int) * rowDir) (htc : toCol = fromCol + (n : Int) * colDir)
    (hj : j + 1 < n) :
    inBounds (fromCol + colDir + (j : Int) * colDir) (fromRow + rowDir + (j : Int) * rowDir) := by
  have hjn : (j : Int) + 1 < n := by exact_mod_cast hj
  have hj0 : (0 : Int) ≤ j := Int.ofNat_nonneg j
  obtain ⟨f1, f2, f3, f4⟩ := hf
  obtain ⟨t1, t2, t3, t4⟩ := ht
  unfold inBounds
  rcases hr with rfl | rfl <;> rcases hc with rfl | rfl <;>
    simp only [mul_neg, mul_one] at htr htc ⊢ <;>
    exact ⟨by omega, by omega, by omega, by omega⟩

/-- C18: for an in-bounds origin and a different in-bounds destination, `isValidMove` and the
three walking checkers return booleans, so no board access is out of range and every walk
ends; on a diagonal move the walk of the bishop and the queen ends within a fuel of
|row delta|, reads at most |row delta| - 1 squares, and reads only squares strictly between
origin and destination. -/
theorem C18_reads_in_range_walk_bounded (board : ChessBoard) (fuel : Nat) (upperTurn : Bool)
    (fromCol fromRow toCol toRow : Int)
    (hfuel : 8 ≤ fuel)
    (hf : inBounds fromCol fromRow) (ht : inBounds toCol toRow)
    (hne : ¬ (fromCol = toCol ∧ fromRow = toRow)) :
    (∃ b, isValidMove fuel upperTurn fromCol fromRow toCol toRow board = Except.ok b) ∧
    (∃ b, isValidRookMove fuel fromCol fromRow toCol toRow board = Except.ok b) ∧
    (∃ b, isValidBishopMove fuel fromCol fromRow toCol toRow board = Except.ok b) ∧
    (∃ b, isValidQueenMove fuel fromCol fromRow toCol toRow board = Except.ok b) ∧
    ((toRow - fromRow).natAbs = (toCol - fromCol).natAbs →
      ∀ rowDir colDir : Int, rowDir = (if toRow < fromRow then -1 else 1) →
        colDir = (if toCol < fromCol then -1 else 1) →
        (∃ b, diagWalk board rowDir colDir toRow (toRow - fromRow).natAbs
            (fromRow + rowDir) (fromCol + colDir) = Except.ok b) ∧
        (∀ anyFuel : Nat,
          (diagReads board rowDir colDir toRow anyFuel (fromRow + rowDir)
              (fromCol + colDir)).length ≤ (toRow - fromRow).natAbs - 1 ∧
          ∀ sq ∈ diagReads board rowDir colDir toRow anyFuel (fromRow + rowDir)
              (fromCol + colDir),
            strictlyBetween fromCol fromRow toCol toRow sq.1 sq.2)) := by
  refine ⟨isValidMove_total board fuel upperTurn fromCol fromRow toCol toRow hfuel hf ht hne,
    ?_, ?_, ?_, ?_⟩
  · obtain ⟨b, hb, _⟩ := isValidRookMove_spec board fuel fromCol fromRow toCol toRow hf ht hfuel
    exact ⟨b, hb⟩
  · obtain ⟨b, hb, _⟩ := isValidBishopMove_spec board fuel fromCol fromRow toCol toRow hf ht
      hfuel hne
    exact ⟨b, hb⟩
  · obtain ⟨b, hb, _⟩ := isValidQueenMove_spec board fuel fromCol fromRow toCol toRow hf ht hfuel
    exact ⟨b, hb⟩
  · intro hd rowDir colDir hrd hcd
    have hrow : fromRow ≠ toRow := by omega
    obtain ⟨hr, hc, hpos, htr, htc⟩ :=
      diag_linear fromCol fromRow toCol toRow rowDir colDir hd hrow hrd hcd
    obtain ⟨n, hn⟩ : ∃ n : Nat, n = (toRow - fromRow).natAbs := ⟨_, rfl⟩
    rw [← hn] at hpos htr htc ⊢
    have hr0 : rowDir ≠ 0 := by rcases hr with h | h <;> omega
    have hcast : ((n - 1 : Nat) : Int) = (n : Int) - 1 := by omega
    have hsteps : toRow = fromRow + rowDir + ((n - 1 : Nat) : Int) * rowDir := by
      rw [hcast]; linear_combination htr
    have hfuel2 : n - 1 < n := by omega
    have hin : ∀ j : Nat, j < n - 1 →
        inBounds (fromCol + colDir + j * colDir) (fromRow + rowDir + j * rowDir) := fun j hj =>
      diag_step_inBounds fromCol fromRow toCol toRow rowDir colDir n j hf ht hr hc htr htc
        (by omega)
    constructor
    · obtain ⟨b, hb, _⟩ := diagWalk_spec board rowDir colDir toRow hr0 (n - 1) n
        (fromRow + rowDir) (fromCol + colDir) hfuel2 hsteps hin
      exact ⟨b, hb⟩
    · intro anyFuel
      have hreads := diagReads_spec board rowDir colDir toRow (n - 1) anyFuel (fromRow + rowDir)
        (fromCol + colDir) hsteps
      refine ⟨hreads.1, ?_⟩
      intro sq hsq
      obtain ⟨j, hj, rfl⟩ := hreads.2 sq hsq
      exact diag_step_between fromCol fromRow toCol toRow rowDir colDir n j hr hc htr htc
        (by omega)

/-- C18 at a concrete input: the bishop move from column 2, row 7 to column 7, row 2 on the
initial board returns a boolean. -/
theorem C18_reads_in_range_walk_bounded_witness :
    ∃ b, isValidMove 8 true 2 7 7 2 initializeBoard = Except.ok b :=
  (C18_reads_in_range_walk_bounded initializeBoard 8 true 2 7 7 2 (by decide) (by decide)
    (by decide) (by decide)).1

theorem swapCase_marker (u : Bool) (k : Kind) : swapCase (marker u k) = marker (!u) k := by
  cases u <;> cases k <;> decide

theorem swapCase_blank : swapCase " " = " " := by decide

theorem index_mirror (board : ChessBoard) (row col : Int) :
    index (mirror board) row col =
      match index board (7 - row) col with
      | Except.ok s => Except.ok (swapCase s)
      | Except.error e => Except.error e := by
  unfold index
  by_cases hb : 0 ≤ row ∧ row < 8 ∧ 0 ≤ col ∧ col < 8
  · have hb2 : 0 ≤ 7 - row ∧ 7 - row < 8 ∧ 0 ≤ col ∧ col < 8 := by omega
    rw [dif_pos hb, dif_pos hb2]
    simp only [mirror]
    have : (7 - row.toNat : Nat) = (7 - row).toNat := by omega
    simp only [this]
  · have hb2 : ¬ (0 ≤ 7 - row ∧ 7 - row < 8 ∧ 0 ≤ col ∧ col < 8) := by omega
    rw [dif_neg hb, dif_neg hb2]

/-- On a legal board a square of the mirrored board is blank exactly when the square it comes
from is. -/
theorem index_mirror_blank {board : ChessBoard} (hl : legalBoard board) (row col : Int) :
    index (mirror board) (7 - row) col = Except.ok " " ↔ index board row col = Except.ok " " := by
  rw [index_mirror]
  have e : (7 : Int) - (7 - row) = row := by omega
  rw [e]
  cases hidx : index board row col with
  | error e => simp
  | ok s =>
    rcases legal_index hl hidx with rfl | ⟨u, k, rfl⟩
    · simp [swapCase_blank]
    · simp only [swapCase_marker, Except.ok.injEq]
      constructor
      · intro h; exact absurd h (marker_ne_blank _ _)
      · intro h; exact absurd h (marker_ne_blank _ _)

theorem marker_injective {u v : Bool} {k j : Kind} (h : marker u k = marker v j) :
    u = v ∧ k = j := by
  revert h
  cases u <;> cases v <;> cases k <;> cases j <;> decide

/-- A square of the mirrored board holds a piece of side `!u` exactly when the square it comes
from holds the same kind of piece of side `u`. -/
theorem index_mirror_marker {board : ChessBoard} (hl : legalBoard board) (row col : Int)
    (u : Bool) (k : Kind) :
    index (mirror board) (7 - row) col = Except.ok (marker (!u) k) ↔
      index board row col = Except.ok (marker u k) := by
  rw [index_mirror]
  have e : (7 : Int) - (7 - row) = row := by omega
  rw [e]
  cases hidx : index board row col with
  | error e => simp
  | ok s =>
    rcases legal_index hl hidx with rfl | ⟨v, j, rfl⟩
    · simp only [swapCase_blank, Except.ok.injEq]
      constructor
      · intro h; exact absurd h.symm (marker_ne_blank _ _)
      · intro h; exact absurd h.symm (marker_ne_blank _ _)
    · simp only [swapCase_marker, Except.ok.injEq]
      constructor
      · intro h
        obtain ⟨h1, h2⟩ := marker_injective h
        have : v = u := by cases u <;> cases v <;> simp_all
        rw [this, h2]
      · intro h
        obtain ⟨h1, h2⟩ := marker_injective h
        rw [h1, h2]

theorem strictlyBetween_mirror (fromCol fromRow toCol toRow col row : Int) :
    strictlyBetween fromCol (7 - fromRow) toCol (7 - toRow) col (7 - row) ↔
      strictlyBetween fromCol fromRow toCol toRow col row := by
  unfold strictlyBetween
  omega

theorem pathClear_mirror {board : ChessBoard} (hl : legalBoard board)
    (fromCol fromRow toCol toRow : Int) :
    pathClear (mirror board) fromCol (7 - fromRow) toCol (7 - toRow) ↔
      pathClear board fromCol fromRow toCol toRow := by
  unfold pathClear
  constructor
  · intro h col row hb
    have := h col (7 - row) ((strictlyBetween_mirror _ _ _ _ _ _).mpr hb)
    exact (index_mirror_blank hl row col).mp this
  · intro h col row hb
    have e : row = 7 - (7 - row) := by omega
    rw [e] at hb ⊢
    exact (index_mirror_blank hl (7 - row) col).mpr
      (h col (7 - row) ((strictlyBetween_mirror _ _ _ _ _ _).mp hb))

theorem admissible_mirror (k : Kind) (fromCol fromRow toCol toRow : Int) :
    admissible k fromCol (7 - fromRow) toCol (7 - toRow) ↔
      admissible k fromCol fromRow toCol toRow := by
  cases k <;> simp only [admissible] <;> omega

/-- Two evaluations that return booleans characterised by equivalent conditions agree. -/
theorem verdict_eq_of_iff {x y : Except Fault Bool} {P Q : Prop}
    (hx : ∃ b, x = Except.ok b ∧ (b = true ↔ P))
    (hy : ∃ b, y = Except.ok b ∧ (b = true ↔ Q)) (h : P ↔ Q) : x = y := by
  obtain ⟨b, rfl, hb⟩ := hx
  obtain ⟨c, rfl, hc⟩ := hy
  have : b = c := by
    rw [Bool.eq_iff_iff, hb, hc, h]
  rw [this]

/-- The verdict on a pawn of the side to move, on a board of legal markers. -/
theorem pawn_spec (board : ChessBoard) (fuel : Nat) (upperTurn : Bool)
    (fromCol fromRow toCol toRow : Int)
    (hl : legalBoard board)
    (hf : inBounds fromCol fromRow) (ht : inBounds toCol toRow)
    (hp : index board fromRow fromCol = Except.ok (marker upperTurn Kind.pawn)) :
    ∃ b, isValidMove fuel upperTurn fromCol fromRow toCol toRow board = Except.ok b ∧
      (b = true ↔
        (fromCol = toCol ∧ toRow = fromRow + forward upperTurn ∧
          index board toRow toCol = Except.ok " ") ∨
        (fromCol = toCol ∧ toRow = fromRow + 2 * forward upperTurn ∧
          fromRow = startRow upperTurn ∧
          index board (fromRow + forward upperTurn) fromCol = Except.ok " " ∧
          index board toRow toCol = Except.ok " ") ∨
        ((toCol - fromCol).natAbs = 1 ∧ toRow = fromRow + forward upperTurn ∧
          ∃ k, index board toRow toCol = Except.ok (marker (!upperTurn) k))) := by
  rw [isValidMove_dispatch board fuel upperTurn fromCol fromRow toCol toRow Kind.pawn hf ht hp]
  cases upperTurn with
  | false =>
    obtain ⟨b, hb, hiff⟩ := lowerPawnCase_spec board fromCol fromRow toCol toRow ht
    refine ⟨b, hb, ?_⟩
    rw [hiff, occupied_by_side hl toRow toCol true]
    simp only [forward, startRow, Bool.false_eq_true, if_false, Bool.not_false, mul_one]
  | true =>
    obtain ⟨b, hb, hiff⟩ := upperPawnCase_spec board fromCol fromRow toCol toRow ht
    refine ⟨b, hb, ?_⟩
    rw [hiff, occupied_by_side hl toRow toCol false]
    simp only [forward, startRow, if_true, Bool.not_true, mul_neg, mul_one, Int.sub_eq_add_neg]

theorem legalBoard_mirror {board : ChessBoard} (hl : legalBoard board) :
    legalBoard (mirror board) := by
  intro row col
  unfold mirror
  rcases hl ⟨7 - row.val, by omega⟩ col with h | ⟨u, k, h⟩
  · left; rw [h]; exact swapCase_blank
  · right; exact ⟨!u, k, by rw [h]; exact swapCase_marker u k⟩

theorem isValidKnightMove_mirror (fromCol fromRow toCol toRow : Int) (b1 b2 : ChessBoard)
    (ht : inBounds toCol toRow) :
    isValidKnightMove fromCol (7 - fromRow) toCol (7 - toRow) b2 =
      isValidKnightMove fromCol fromRow toCol toRow b1 := by
  have g1 : ¬ (toRow < 0 ∨ toRow ≥ boardSize ∨ toCol < 0 ∨ toCol ≥ boardSize) := by
    unfold inBounds at ht; unfold boardSize; omega
  have g2 : ¬ (7 - toRow < 0 ∨ 7 - toRow ≥ boardSize ∨ toCol < 0 ∨ toCol ≥ boardSize) := by
    unfold inBounds at ht; unfold boardSize; omega
  have e : (7 - fromRow - (7 - toRow)).natAbs = (fromRow - toRow).natAbs := by omega
  unfold isValidKnightMove
  rw [if_neg g1, if_neg g2]
  simp only [abs_eq_natAbs, e]

theorem isValidKingMove_mirror (fromCol fromRow toCol toRow : Int) (b1 b2 : ChessBoard)
    (ht : inBounds toCol toRow) :
    isValidKingMove fromCol (7 - fromRow) toCol (7 - toRow) b2 =
      isValidKingMove fromCol fromRow toCol toRow b1 := by
  have g1 : ¬ (toRow < 0 ∨ toRow ≥ boardSize ∨ toCol < 0 ∨ toCol ≥ boardSize) := by
    unfold inBounds at ht; unfold boardSize; omega
  have g2 : ¬ (7 - toRow < 0 ∨ 7 - toRow ≥ boardSize ∨ toCol < 0 ∨ toCol ≥ boardSize) := by
    unfold inBounds at ht; unfold boardSize; omega
  have e : (7 - fromRow - (7 - toRow)).natAbs = (fromRow - toRow).natAbs := by omega
  unfold isValidKingMove
  rw [if_neg g1, if_neg g2]
  simp only [abs_eq_natAbs, e]

/-- The three pawn cases read on the mirrored board for the other side are the three pawn
cases on the board itself. -/
theorem pawn_cases_mirror {board : ChessBoard} (hl : legalBoard board) (u : Bool)
    (fromCol fromRow toCol toRow : Int) :
    ((fromCol = toCol ∧ 7 - toRow = 7 - fromRow + forward (!u) ∧
          index (mirror board) (7 - toRow) toCol = Except.ok " ") ∨
        (fromCol = toCol ∧ 7 - toRow = 7 - fromRow + 2 * forward (!u) ∧
          7 - fromRow = startRow (!u) ∧
          index (mirror board) (7 - fromRow + forward (!u)) fromCol = Except.ok " " ∧
          index (mirror board) (7 - toRow) toCol = Except.ok " ") ∨
        ((toCol - fromCol).natAbs = 1 ∧ 7 - toRow = 7 - fromRow + forward (!u) ∧
          ∃ k, index (mirror board) (7 - toRow) toCol = Except.ok (marker (!(!u)) k))) ↔
    ((fromCol = toCol ∧ toRow = fromRow + forward u ∧
          index board toRow toCol = Except.ok " ") ∨
        (fromCol = toCol ∧ toRow = fromRow + 2 * forward u ∧
          fromRow = startRow u ∧
          index board (fromRow + forward u) fromCol = Except.ok " " ∧
          index board toRow toCol = Except.ok " ") ∨
        ((toCol - fromCol).natAbs = 1 ∧ toRow = fromRow + forward u ∧
          ∃ k, index board toRow toCol = Except.ok (marker (!u) k))) := by
  have hfw : forward (!u) = - forward u := by cases u <;> rfl
  have hst : startRow (!u) = 7 - startRow u := by cases u <;> rfl
  have e1 : 7 - fromRow + forward (!u) = 7 - (fromRow + forward u) := by rw [hfw]; ring
  rw [e1, index_mirror_blank hl, index_mirror_blank hl]
  simp only [index_mirror_marker hl]
  rw [hfw, hst]
  have a1 : 7 - toRow = 7 - (fromRow + forward u) ↔ toRow = fromRow + forward u := by
    constructor <;> intro h <;> omega
  have a2 : 7 - toRow = 7 - fromRow + 2 * -forward u ↔ toRow = fromRow + 2 * forward u := by
    constructor <;> intro h <;> omega
  have a3 : 7 - fromRow = 7 - startRow u ↔ fromRow = startRow u := by
    constructor <;> intro h <;> omega
  rw [a1, a2, a3]

/-- C19: on a board of legal markers, for an in-bounds origin and a different in-bounds
destination, `isValidMove` gives the same result as on the mirrored board (row `r` holding row
`7 - r` with the side of every piece swapped) with both rows mirrored and the other side to
move. -/
theorem C19_mirror_symmetry (board : ChessBoard) (fuel : Nat) (upperTurn : Bool)
    (fromCol fromRow toCol toRow : Int)
    (hfuel : 8 ≤ fuel) (hl : legalBoard board)
    (hf : inBounds fromCol fromRow) (ht : inBounds toCol toRow)
    (hne : ¬ (fromCol = toCol ∧ fromRow = toRow)) :
    isValidMove fuel upperTurn fromCol fromRow toCol toRow board =
      isValidMove fuel (!upperTurn) fromCol (7 - fromRow) toCol (7 - toRow) (mirror board) := by
  have hf2 : inBounds fromCol (7 - fromRow) := by unfold inBounds at *; omega
  have ht2 : inBounds toCol (7 - toRow) := by unfold inBounds at *; omega
  have hne2 : ¬ (fromCol = toCol ∧ 7 - fromRow = 7 - toRow) := by omega
  have hl2 := legalBoard_mirror hl
  obtain ⟨s, hs⟩ := index_inBounds board _ _ hf
  rcases legal_index hl hs with rfl | ⟨u, k, rfl⟩
  · rw [isValidMove_blank_origin _ _ _ _ _ _ _ hs,
      isValidMove_blank_origin _ _ _ _ _ _ _ ((index_mirror_blank hl _ _).mpr hs)]
  · have hs2 : index (mirror board) (7 - fromRow) fromCol = Except.ok (marker (!u) k) :=
      (index_mirror_marker hl _ _ u k).mpr hs
    by_cases hu : u = upperTurn
    · subst hu
      cases k with
      | pawn =>
        exact verdict_eq_of_iff (pawn_spec board fuel u fromCol fromRow toCol toRow hl hf ht hs)
          (pawn_spec (mirror board) fuel (!u) fromCol (7 - fromRow) toCol (7 - toRow) hl2 hf2
            ht2 hs2)
          (pawn_cases_mirror hl u fromCol fromRow toCol toRow).symm
      | rook =>
        exact verdict_eq_of_iff
          (slide_spec board fuel u fromCol fromRow toCol toRow Kind.rook (Or.inl rfl) hf ht hfuel
            (fun _ => hne) hs)
          (slide_spec (mirror board) fuel (!u) fromCol (7 - fromRow) toCol (7 - toRow) Kind.rook
            (Or.inl rfl) hf2 ht2 hfuel (fun _ => hne2) hs2)
          (by rw [admissible_mirror, pathClear_mirror hl])
      | bishop =>
        exact verdict_eq_of_iff
          (slide_spec board fuel u fromCol fromRow toCol toRow Kind.bishop (Or.inr (Or.inl rfl))
            hf ht hfuel (fun _ => hne) hs)
          (slide_spec (mirror board) fuel (!u) fromCol (7 - fromRow) toCol (7 - toRow)
            Kind.bishop (Or.inr (Or.inl rfl)) hf2 ht2 hfuel (fun _ => hne2) hs2)
          (by rw [admissible_mirror, pathClear_mirror hl])
      | queen =>
        exact verdict_eq_of_iff
          (slide_spec board fuel u fromCol fromRow toCol toRow Kind.queen (Or.inr (Or.inr rfl))
            hf ht hfuel (fun _ => hne) hs)
          (slide_spec (mirror board) fuel (!u) fromCol (7 - fromRow) toCol (7 - toRow)
            Kind.queen (Or.inr (Or.inr rfl)) hf2 ht2 hfuel (fun _ => hne2) hs2)
          (by rw [admissible_mirror, pathClear_mirror hl])
      | knight =>
        rw [isValidMove_dispatch board fuel u fromCol fromRow toCol toRow Kind.knight hf ht hs,
          isValidMove_dispatch (mirror board) fuel (!u) fromCol (7 - fromRow) toCol (7 - toRow)
            Kind.knight hf2 ht2 hs2]
        simp only
        rw [isValidKnightMove_mirror fromCol fromRow toCol toRow board (mirror board) ht]
      | king =>
        rw [isValidMove_dispatch board fuel u fromCol fromRow toCol toRow Kind.king hf ht hs,
          isValidMove_dispatch (mirror board) fuel (!u) fromCol (7 - fromRow) toCol (7 - toRow)
            Kind.king hf2 ht2 hs2]
        simp only
        rw [isValidKingMove_mirror fromCol fromRow toCol toRow board (mirror board) ht]
    · have hu2 : u = !upperTurn := by cases u <;> cases upperTurn <;> simp_all
      subst hu2
      rw [isValidMove_wrongSide board fuel upperTurn fromCol fromRow toCol toRow k hs,
        isValidMove_wrongSide (mirror board) fuel (!upperTurn) fromCol (7 - fromRow) toCol
          (7 - toRow) k hs2]

/-- C19 at a concrete input: the double push of the upper pawn on column 4 of the initial
board and its mirror image. -/
theorem C19_mirror_symmetry_witness :
    isValidMove 8 true 4 6 4 4 initializeBoard =
      isValidMove 8 (!true) 4 (7 - 6) 4 (7 - 4) (mirror initializeBoard) :=
  C19_mirror_symmetry initializeBoard 8 true 4 6 4 4 (by decide) initializeBoard_legal
    (by decide) (by decide) (by decide)

theorem index_eq_cell {board : ChessBoard} {row col : Int} {s : String}
    (h : index board row col = Except.ok s) (hr : row.toNat < 8) (hc : col.toNat < 8) :
    board ⟨row.toNat, hr⟩ ⟨col.toNat, hc⟩ = s := by
  unfold index at h
  split at h
  · exact Except.ok.inj h
  · cases h

theorem square_eq_iff (p : Fin 8 × Fin 8) (row col : Int) (hr : row.toNat < 8)
    (hc : col.toNat < 8) (h0 : 0 ≤ row) (h1 : 0 ≤ col) :
    p = (⟨row.toNat, hr⟩, ⟨col.toNat, hc⟩) ↔ ((p.1.val : Int) = row ∧ (p.2.val : Int) = col) := by
  rw [Prod.ext_iff, Fin.ext_iff, Fin.ext_iff]
  simp only
  omega

/-- Moving a piece between two different squares keeps the number of occupied squares or
lowers it by one. -/
theorem countCells_move (board : ChessBoard) (fromCol fromRow toCol toRow : Int)
    (piece : String)
    (hf : inBounds fromCol fromRow) (ht : inBounds toCol toRow)
    (hne : ¬ (fromCol = toCol ∧ fromRow = toRow))
    (hp : index board fromRow fromCol = Except.ok piece) (hocc : piece ≠ " ") :
    countCells (setCell (setCell board toCol toRow piece) fromCol fromRow " ") occupied
        ≤ countCells board occupied ∧
      countCells board occupied ≤
        countCells (setCell (setCell board toCol toRow piece) fromCol fromRow " ") occupied
          + 1 := by
  obtain ⟨f1, f2, f3, f4⟩ := hf
  obtain ⟨t1, t2, t3, t4⟩ := ht
  have hfr : fromRow.toNat < 8 := by omega
  have hfc : fromCol.toNat < 8 := by omega
  have htr : toRow.toNat < 8 := by omega
  have htc : toCol.toNat < 8 := by omega
  have hcell := index_eq_cell hp hfr hfc
  have hpo : occupied piece = true := by simpa [occupied] using hocc
  have hset : (Finset.univ.filter fun p : Fin 8 × Fin 8 =>
      occupied (setCell (setCell board toCol toRow piece) fromCol fromRow " " p.1 p.2) = true)
      = insert (⟨toRow.toNat, htr⟩, ⟨toCol.toNat, htc⟩)
          ((Finset.univ.filter fun p : Fin 8 × Fin 8 => occupied (board p.1 p.2) = true).erase
            (⟨fromRow.toNat, hfr⟩, ⟨fromCol.toNat, hfc⟩)) := by
    ext p
    simp only [Finset.mem_filter, Finset.mem_univ, true_and, Finset.mem_insert,
      Finset.mem_erase, ne_eq, square_eq_iff p toRow toCol htr htc t3 t1,
      square_eq_iff p fromRow fromCol hfr hfc f3 f1, setCell]
    by_cases hpf : (p.1.val : Int) = fromRow ∧ (p.2.val : Int) = fromCol
    · have hpt : ¬ ((p.1.val : Int) = toRow ∧ (p.2.val : Int) = toCol) := by omega
      rw [if_pos hpf]
      constructor
      · intro h; exact absurd h (by decide)
      · rintro (h | h)
        · exact absurd h hpt
        · exact absurd hpf h.1
    · rw [if_neg hpf]
      by_cases hpt : (p.1.val : Int) = toRow ∧ (p.2.val : Int) = toCol
      · rw [if_pos hpt]
        exact ⟨fun _ => Or.inl hpt, fun _ => hpo⟩
      · rw [if_neg hpt]
        constructor
        · intro h; exact Or.inr ⟨hpf, h⟩
        · rintro (h | h)
          · exact absurd h hpt
          · exact h.2
  have hmem : (⟨fromRow.toNat, hfr⟩, ⟨fromCol.toNat, hfc⟩) ∈
      (Finset.univ.filter fun p : Fin 8 × Fin 8 => occupied (board p.1 p.2) = true) := by
    simp only [Finset.mem_filter, Finset.mem_univ, true_and, hcell, hpo]
  unfold countCells
  rw [hset]
  have h1 := Finset.card_erase_of_mem hmem
  have h2 := Finset.card_pos.mpr ⟨_, hmem⟩
  have h3 := Finset.card_insert_le (⟨toRow.toNat, htr⟩, ⟨toCol.toNat, htc⟩)
    ((Finset.univ.filter fun p : Fin 8 × Fin 8 => occupied (board p.1 p.2) = true).erase
      (⟨fromRow.toNat, hfr⟩, ⟨fromCol.toNat, hfc⟩))
  have h4 := Finset.card_le_card (Finset.subset_insert (⟨toRow.toNat, htr⟩, ⟨toCol.toNat, htc⟩)
    ((Finset.univ.filter fun p : Fin 8 × Fin 8 => occupied (board p.1 p.2) = true).erase
      (⟨fromRow.toNat, hfr⟩, ⟨fromCol.toNat, hfc⟩)))
  omega

/-- C20 (counter-evidence): on the initial board with the upper side to move, the zero-length
move of the rook on column 0, row 7 is accepted, and after the driver applied it the
destination square is blank: the rook that moved is gone and 31 squares are occupied. -/
theorem C20_null_move_removes_piece :
    isValidMove 8 initialState.upperTurn 0 7 0 7 initialState.board = Except.ok true ∧
    index initialState.board 7 0 = Except.ok (marker true Kind.rook) ∧
    (∃ next, mainStep 8 initialState 0 7 0 7 = Except.ok next ∧
      index next.board 7 0 = Except.ok " " ∧
      countCells next.board (fun s => s == marker true Kind.rook) = 1 ∧
      countCells next.board occupied = 31) :=
  ⟨rfl, rfl, _, rfl, rfl, by decide, by decide⟩

/-- C20 (amended): for every state and every move between two different squares that
`isValidMove` accepts, the driver applies it without fault; afterwards the destination holds
the piece that stood on the origin, the origin is blank, every other square is unchanged, and
the number of occupied squares is the same or lower by one. -/
theorem C20_applied_move_frame (fuel : Nat) (st : GameState)
    (fromCol fromRow toCol toRow : Int)
    (hne : ¬ (fromCol = toCol ∧ fromRow = toRow))
    (hacc : isValidMove fuel st.upperTurn fromCol fromRow toCol toRow st.board
      = Except.ok true) :
    ∃ (next : GameState) (piece : String),
      mainStep fuel st fromCol fromRow toCol toRow = Except.ok next ∧
      index st.board fromRow fromCol = Except.ok piece ∧ piece ≠ " " ∧
      index next.board toRow toCol = Except.ok piece ∧
      index next.board fromRow fromCol = Except.ok " " ∧
      (∀ row col : Int, ¬ (row = fromRow ∧ col = fromCol) → ¬ (row = toRow ∧ col = toCol) →
        index next.board row col = index st.board row col) ∧
      countCells next.board occupied ≤ countCells st.board occupied ∧
      countCells st.board occupied ≤ countCells next.board occupied + 1 := by
  obtain ⟨hf, ht⟩ := isValidMove_true_inBounds hacc
  obtain ⟨piece, hp⟩ := index_inBounds st.board _ _ hf
  have hocc : piece ≠ " " := by
    rintro rfl
    rw [isValidMove_blank_origin st.board fuel st.upperTurn fromCol fromRow toCol toRow hp] at hacc
    cases hacc
  have hcount := countCells_move st.board fromCol fromRow toCol toRow piece hf ht hne hp hocc
  refine ⟨_, piece, mainStep_accept fuel st fromCol fromRow toCol toRow piece hacc hp, hp, hocc,
    ?_, ?_, ?_, hcount.1, hcount.2⟩
  · rw [index_setCell, if_neg (fun h => hne ⟨h.2.1.symm, h.1.symm⟩), index_setCell,
      if_pos ⟨rfl, rfl, ht⟩]
  · rw [index_setCell, if_pos ⟨rfl, rfl, hf⟩]
  · intro row col h1 h2
    rw [index_setCell, if_neg (fun h => h1 ⟨h.1, h.2.1⟩), index_setCell,
      if_neg (fun h => h2 ⟨h.1, h.2.1⟩)]

/-- C20 (amended) at a concrete input: the double push of the upper pawn on column 4 of the
initial board, applied by the driver. -/
theorem C20_applied_move_frame_witness :
    ∃ (next : GameState) (piece : String),
      mainStep 8 initialState 4 6 4 4 = Except.ok next ∧
      index initialState.board 6 4 = Except.ok piece ∧ piece ≠ " " ∧
      index next.board 4 4 = Except.ok piece ∧
      index next.board 6 4 = Except.ok " " ∧
      (∀ row col : Int, ¬ (row = 6 ∧ col = 4) → ¬ (row = 4 ∧ col = 4) →
        index next.board row col = index initialState.board row col) ∧
      countCells next.board occupied ≤ countCells initialState.board occupied ∧
      countCells initialState.board occupied ≤ countCells next.board occupied + 1 :=
  C20_applied_move_frame 8 initialState 4 6 4 4 (by decide) rfl

end GoChess
